import Mathlib

/-!
Verification of the tera control-plane specification against the staged
sources: the master's GC strategies (src/master/gc_strategy.cc) and the
client SDK's meta cache, request batching and flow control
(src/sdk/table_impl.cc).  C++ std::string keys are shallowly embedded as
lists of byte values (Nat), std::map as sorted association lists, and the
callback-driven batching code as explicit transition functions on record
states.
-/

/-- Byte strings (std::string contents), one Nat per byte. -/
abbrev Bytes := List Nat

/-- Lexicographic strict order on byte strings, as std::string operator<. -/
def bytesLt : Bytes → Bytes → Bool
  | _, [] => false
  | [], _ :: _ => true
  | a :: s, b :: t => if a < b then true else if a = b then bytesLt s t else false

/-- Lexicographic order on byte strings, as std::string operator<=. -/
def bytesLe (a b : Bytes) : Bool := ! bytesLt b a

theorem bytesLt_nil_right (a : Bytes) : bytesLt a [] = false := by
  cases a <;> rfl

theorem bytesLt_nil_left (b : Bytes) (h : b ≠ []) : bytesLt [] b = true := by
  cases b with
  | nil => exact absurd rfl h
  | cons x t => rfl

theorem bytesLt_cons (a b : Nat) (s t : Bytes) :
    bytesLt (a :: s) (b :: t) =
      if a < b then true else if a = b then bytesLt s t else false := rfl

theorem bytesLt_irrefl (a : Bytes) : bytesLt a a = false := by
  induction a with
  | nil => rfl
  | cons x s ih => simp [bytesLt_cons, ih]

theorem bytesLt_trans {a b c : Bytes} (h₁ : bytesLt a b = true)
    (h₂ : bytesLt b c = true) : bytesLt a c = true := by
  induction a generalizing b c with
  | nil =>
    cases c with
    | nil => cases b <;> simp [bytesLt] at h₁ h₂
    | cons z c' => rfl
  | cons x s ih =>
    cases b with
    | nil => simp [bytesLt] at h₁
    | cons y t =>
      cases c with
      | nil => simp [bytesLt] at h₂
      | cons z c' =>
        simp only [bytesLt_cons] at h₁ h₂ ⊢
        by_cases hxy : x < y
        · by_cases hyz : y < z
          · simp [show x < z by omega]
          · by_cases hyze : y = z
            · subst hyze
              simp [hxy]
            · simp [hyz, hyze] at h₂
        · by_cases hxye : x = y
          · subst hxye
            simp [Nat.lt_irrefl] at h₁
            by_cases hxz : x < z
            · simp [hxz]
            · by_cases hxze : x = z
              · subst hxze
                simp [Nat.lt_irrefl] at h₂ ⊢
                exact ih h₁ h₂
              · simp [hxz, hxze] at h₂
          · simp [hxy, hxye] at h₁

theorem bytesLt_asymm {a b : Bytes} (h : bytesLt a b = true) :
    bytesLt b a = false := by
  by_contra hc
  have hba : bytesLt b a = true := by
    cases hh : bytesLt b a with
    | false => exact absurd hh hc
    | true => rfl
  have := bytesLt_trans h hba
  rw [bytesLt_irrefl] at this
  exact Bool.false_ne_true this

theorem bytesLt_connex {a b : Bytes} (h₁ : bytesLt a b = false)
    (h₂ : bytesLt b a = false) : a = b := by
  induction a generalizing b with
  | nil =>
    cases b with
    | nil => rfl
    | cons y t => simp [bytesLt] at h₁
  | cons x s ih =>
    cases b with
    | nil => simp [bytesLt] at h₂
    | cons y t =>
      simp only [bytesLt_cons] at h₁ h₂
      by_cases hxy : x < y
      · simp [hxy] at h₁
      · by_cases hyx : y < x
        · simp [hyx] at h₂
        · have hx : x = y := by omega
          subst hx
          simp [Nat.lt_irrefl] at h₁ h₂
          rw [ih h₁ h₂]

theorem bytesLe_refl (a : Bytes) : bytesLe a a = true := by
  simp [bytesLe, bytesLt_irrefl]

theorem bytesLe_of_lt {a b : Bytes} (h : bytesLt a b = true) :
    bytesLe a b = true := by
  simp [bytesLe, bytesLt_asymm h]

theorem bytesLe_iff (a b : Bytes) :
    bytesLe a b = true ↔ bytesLt a b = true ∨ a = b := by
  constructor
  · intro h
    simp only [bytesLe, Bool.not_eq_true'] at h
    cases hab : bytesLt a b with
    | true => exact Or.inl rfl
    | false => exact Or.inr (bytesLt_connex hab h)
  · rintro (h | rfl)
    · exact bytesLe_of_lt h
    · exact bytesLe_refl a

theorem bytesLt_of_lt_of_le {a b c : Bytes} (h₁ : bytesLt a b = true)
    (h₂ : bytesLe b c = true) : bytesLt a c = true := by
  rcases (bytesLe_iff b c).mp h₂ with h | rfl
  · exact bytesLt_trans h₁ h
  · exact h₁

theorem bytesLt_of_le_of_lt {a b c : Bytes} (h₁ : bytesLe a b = true)
    (h₂ : bytesLt b c = true) : bytesLt a c = true := by
  rcases (bytesLe_iff a b).mp h₁ with h | rfl
  · exact bytesLt_trans h h₂
  · exact h₂

theorem bytesLe_trans {a b c : Bytes} (h₁ : bytesLe a b = true)
    (h₂ : bytesLe b c = true) : bytesLe a c = true := by
  rcases (bytesLe_iff a b).mp h₁ with h | rfl
  · exact bytesLe_of_lt (bytesLt_of_lt_of_le h h₂)
  · exact h₂

theorem bytesLt_or_ge (a b : Bytes) :
    bytesLt a b = true ∨ bytesLe b a = true := by
  cases h : bytesLt a b with
  | true => exact Or.inl rfl
  | false => exact Or.inr (by simp [bytesLe, h])

theorem bytesLt_ne_nil {a b : Bytes} (h : bytesLt a b = true) : b ≠ [] := by
  intro hb
  subst hb
  rw [bytesLt_nil_right] at h
  exact Bool.false_ne_true h

/-- A proper extension of a byte string is strictly greater. -/
theorem bytesLt_append_nonempty (s u : Bytes) (hu : u ≠ []) :
    bytesLt s (s ++ u) = true := by
  induction s with
  | nil => simpa using bytesLt_nil_left u hu
  | cons x t ih => simpa [bytesLt_cons] using ih

/-- Appending on the right of the greater side preserves strictness. -/
theorem bytesLt_append_right {a b : Bytes} (t : Bytes)
    (h : bytesLt a b = true) : bytesLt a (b ++ t) = true := by
  induction a generalizing b with
  | nil =>
    have hb := bytesLt_ne_nil h
    exact bytesLt_nil_left _ (by simp [hb])
  | cons x s ih =>
    cases b with
    | nil => simp [bytesLt] at h
    | cons y bt =>
      simp only [bytesLt_cons, List.cons_append] at h ⊢
      by_cases h₁ : x < y
      · simp [h₁]
      · by_cases h₂ : x = y
        · simp only [if_neg h₁, if_pos h₂] at h ⊢
          exact ih h
        · simp [h₁, h₂] at h

/-- A prefix of a string strictly below e is itself strictly below e. -/
theorem bytesLt_of_append_left {p t e : Bytes}
    (h : bytesLt (p ++ t) e = true) : bytesLt p e = true := by
  induction p generalizing e with
  | nil =>
    cases e with
    | nil => rw [bytesLt_nil_right] at h; exact absurd h (by simp)
    | cons y e' => rfl
  | cons x s ih =>
    cases e with
    | nil => rw [bytesLt_nil_right] at h; exact absurd h (by simp)
    | cons y e' =>
      simp only [List.cons_append, bytesLt_cons] at h ⊢
      by_cases h₁ : x < y
      · simp [h₁]
      · by_cases h₂ : x = y
        · simp only [if_neg h₁, if_pos h₂] at h ⊢
          exact ih h
        · simp [h₁, h₂] at h

/-- Discarding trailing zero padding on the smaller side preserves strictness. -/
theorem bytesLt_of_pad_left {y x : Bytes} {k : Nat}
    (h : bytesLt (y ++ List.replicate k 0) x = true) : bytesLt y x = true := by
  induction y generalizing x k with
  | nil =>
    cases x with
    | nil =>
      rw [bytesLt_nil_right] at h
      exact absurd h (by simp)
    | cons z x' => rfl
  | cons c y' ih =>
    cases x with
    | nil => rw [bytesLt_nil_right] at h; exact absurd h (by simp)
    | cons d x' =>
      simp only [List.cons_append, bytesLt_cons] at h ⊢
      by_cases h₁ : c < d
      · simp [h₁]
      · by_cases h₂ : c = d
        · simp only [if_neg h₁, if_pos h₂] at h ⊢
          exact ih h
        · simp [h₁, h₂] at h

theorem bytesLt_replicate_zero_right (l : Bytes) (n : Nat)
    (hlen : l.length = n) : bytesLt l (List.replicate n 0) = false := by
  induction l generalizing n with
  | nil =>
    subst hlen
    rfl
  | cons x s ih =>
    cases n with
    | zero => simp at hlen
    | succ m =>
      simp only [List.length_cons, Nat.succ.injEq] at hlen
      simp only [List.replicate_succ, bytesLt_cons]
      split_ifs with h₁ h₂
      · omega
      · exact ih m hlen
      · rfl

theorem bytesLt_replicate_zero_left (l : Bytes) (n : Nat) (hlen : l.length = n) :
    bytesLt (List.replicate n 0) l = false ↔ ∀ x ∈ l, x = 0 := by
  induction l generalizing n with
  | nil => subst hlen; simp [bytesLt]
  | cons x s ih =>
    cases n with
    | zero => simp at hlen
    | succ m =>
      simp only [List.length_cons, Nat.succ.injEq] at hlen
      simp only [List.replicate_succ, bytesLt_cons]
      rcases Nat.eq_zero_or_pos x with rfl | hx

      · simpa using ih m hlen
      · simp only [if_pos hx]
        constructor
        · intro h; exact absurd h (by simp)
        · intro h
          have := h x (by simp)
          omega

/-- Value of a byte string read as a big-endian base-256 integer. -/
def byteVal : Bytes → Nat
  | [] => 0
  | b :: t => b * 256 ^ t.length + byteVal t

theorem byteVal_append (a b : Bytes) :
    byteVal (a ++ b) = byteVal a * 256 ^ b.length + byteVal b := by
  induction a with
  | nil => simp [byteVal]
  | cons x s ih =>
    simp only [List.cons_append, byteVal, List.append_eq, ih, List.length_append,
      pow_add]
    ring

theorem byteVal_replicate_zero (k : Nat) : byteVal (List.replicate k 0) = 0 := by
  induction k with
  | zero => rfl
  | succ m ih => simp [List.replicate_succ, byteVal, ih]

theorem byteVal_lt (l : Bytes) (h : ∀ b ∈ l, b < 256) :
    byteVal l < 256 ^ l.length := by
  induction l with
  | nil => simp [byteVal]
  | cons x s ih =>
    have hx : x < 256 := h x (by simp)
    have hs : byteVal s < 256 ^ s.length := ih (fun b hb => h b (by simp [hb]))
    simp only [byteVal, List.length_cons, pow_succ]
    calc x * 256 ^ s.length + byteVal s
        < x * 256 ^ s.length + 256 ^ s.length := by omega
      _ = (x + 1) * 256 ^ s.length := by ring
      _ ≤ 256 ^ s.length * 256 := by
          rw [Nat.mul_comm (256 ^ s.length) 256]
          exact Nat.mul_le_mul_right _ (by omega)

theorem bytesLt_iff_byteVal {a b : Bytes} (hlen : a.length = b.length)
    (ha : ∀ x ∈ a, x < 256) (hb : ∀ x ∈ b, x < 256) :
    bytesLt a b = true ↔ byteVal a < byteVal b := by
  induction a generalizing b with
  | nil =>
    cases b with
    | nil => simp [bytesLt, byteVal]
    | cons y t => simp at hlen
  | cons x s ih =>
    cases b with
    | nil => simp at hlen
    | cons y t =>
      simp only [List.length_cons, Nat.succ.injEq] at hlen
      have hP : s.length = t.length := hlen
      have hsv : byteVal s < 256 ^ s.length := byteVal_lt s (fun z hz => ha z (by simp [hz]))
      have htv : byteVal t < 256 ^ t.length := byteVal_lt t (fun z hz => hb z (by simp [hz]))
      simp only [bytesLt_cons, byteVal, hP]
      by_cases hxy : x < y
      · simp only [if_pos hxy, true_iff]
        calc x * 256 ^ t.length + byteVal s
            < x * 256 ^ t.length + 256 ^ t.length := by rw [hP] at hsv; omega
          _ = (x + 1) * 256 ^ t.length := by ring
          _ ≤ y * 256 ^ t.length := Nat.mul_le_mul_right _ (by omega)
          _ ≤ y * 256 ^ t.length + byteVal t := Nat.le_add_right _ _
      · by_cases hxye : x = y
        · subst hxye
          rw [if_neg hxy, if_pos rfl,
            ih hP (fun z hz => ha z (by simp [hz])) (fun z hz => hb z (by simp [hz]))]
          omega
        · rw [if_neg hxy, if_neg hxye]
          constructor
          · intro hcon
            exact absurd hcon (by simp)
          · intro hcon
            exfalso
            have hchain : y * 256 ^ t.length + byteVal t
                < x * 256 ^ t.length + byteVal s := by
              calc y * 256 ^ t.length + byteVal t
                  < y * 256 ^ t.length + 256 ^ t.length := by omega
                _ = (y + 1) * 256 ^ t.length := by ring
                _ ≤ x * 256 ^ t.length := Nat.mul_le_mul_right _ (by omega)
                _ ≤ x * 256 ^ t.length + byteVal s := Nat.le_add_right _ _
            omega

/-- Big-endian digits of m, n bytes wide. -/
def toBytes : Nat → Nat → Bytes
  | 0, _ => []
  | n + 1, m => toBytes n (m / 256) ++ [m % 256]

theorem toBytes_length (n m : Nat) : (toBytes n m).length = n := by
  induction n generalizing m with
  | zero => rfl
  | succ k ih => simp [toBytes, ih]

theorem toBytes_valid (n m : Nat) : ∀ x ∈ toBytes n m, x < 256 := by
  induction n generalizing m with
  | zero => simp [toBytes]
  | succ k ih =>
    intro x hx
    simp only [toBytes, List.mem_append, List.mem_singleton] at hx
    rcases hx with hx | rfl
    · exact ih (m / 256) x hx
    · exact Nat.mod_lt _ (by omega)

theorem byteVal_toBytes (n m : Nat) (h : m < 256 ^ n) :
    byteVal (toBytes n m) = m := by
  induction n generalizing m with
  | zero =>
    simp only [pow_zero, Nat.lt_one_iff] at h
    simp [toBytes, byteVal, h]
  | succ k ih =>
    have hdiv : m / 256 < 256 ^ k := by
      rw [Nat.div_lt_iff_lt_mul (by omega : (0:Nat) < 256)]
      calc m < 256 ^ (k + 1) := h
        _ = 256 ^ k * 256 := by rw [pow_succ]
    simp only [toBytes, byteVal_append, byteVal, toBytes_length]
    simp only [List.length_singleton, pow_one, List.length_nil, pow_zero, mul_one]
    rw [ih (m / 256) hdiv]
    have := Nat.div_add_mod m 256
    omega

theorem toBytes_byteVal (l : Bytes) (h : ∀ x ∈ l, x < 256) :
    toBytes l.length (byteVal l) = l := by
  induction l using List.reverseRecOn with
  | nil => rfl
  | append_singleton t d ih =>
    have hd : d < 256 := h d (by simp)
    have ht : ∀ x ∈ t, x < 256 := fun x hx => h x (by simp [hx])
    have hv : byteVal (t ++ [d]) = 256 * byteVal t + d := by
      simp [byteVal_append, byteVal]
      ring
    simp only [List.length_append, List.length_singleton, toBytes, hv]
    have h1 : (256 * byteVal t + d) / 256 = byteVal t := by
      rw [Nat.mul_add_div (by omega : (0:Nat) < 256)]
      omega
    have h2 : (256 * byteVal t + d) % 256 = d := by
      rw [Nat.mul_add_mod]
      exact Nat.mod_eq_of_lt hd
    rw [h1, h2, ih ht]

/-- Discarding the zero padding that equalized the two lengths: x shorter than
its padded comparand and strictly below it is, extended arbitrarily, still
strictly below the unpadded string. -/
theorem bytesLt_unpad_right {x y : Bytes} {k : Nat}
    (hlen : x.length = y.length + k)
    (h : bytesLt x (y ++ List.replicate k 0) = true) (t : Bytes) :
    bytesLt (x ++ t) y = true := by
  induction y generalizing x with
  | nil =>
    simp only [List.length_nil, Nat.zero_add] at hlen
    rw [List.nil_append] at h
    rw [bytesLt_replicate_zero_right x k hlen] at h
    exact absurd h (by simp)
  | cons d y' ih =>
    cases x with
    | nil =>
      simp only [List.length_nil, List.length_cons] at hlen
      omega
    | cons c x' =>
      simp only [List.length_cons] at hlen
      have hlen' : x'.length = y'.length + k := by omega
      simp only [List.cons_append, bytesLt_cons] at h ⊢
      by_cases h₁ : c < d
      · simp [h₁]
      · by_cases h₂ : c = d
        · simp only [if_neg h₁, if_pos h₂] at h ⊢
          exact ih hlen' h
        · simp [h₁, h₂] at h

theorem byteVal_pad (l : Bytes) (k : Nat) :
    byteVal (l ++ List.replicate k 0) = byteVal l * 256 ^ k := by
  rw [byteVal_append, byteVal_replicate_zero, List.length_replicate]
  omega

theorem bytesLe_nil_iff (x : Bytes) : bytesLe x [] = true ↔ x = [] := by
  cases x with
  | nil => simp [bytesLe_refl]
  | cons c t =>
    simp only [bytesLe, bytesLt_nil_left (c :: t) (by simp), Bool.not_true]
    constructor
    · intro h
      exact absurd h (by simp)
    · intro h
      exact absurd h (by simp)

theorem bytesLe_cons_same (c : Nat) (u v : Bytes) :
    bytesLe (c :: u) (c :: v) = bytesLe u v := by
  simp [bytesLe, bytesLt_cons, Nat.lt_irrefl]

/-- Padding both sides to a common length: the padded comparison fails to be
strict exactly when end is at most start or end is start plus trailing zero
bytes. -/
theorem pad_lt_false_iff :
    ∀ (e s : Bytes) (b a : Nat), s.length + b = e.length + a →
      (bytesLt (s ++ List.replicate b 0) (e ++ List.replicate a 0) = false ↔
        (bytesLe e s = true ∨ ∃ k, e = s ++ List.replicate (k + 1) 0)) := by
  intro e
  induction e with
  | nil =>
    intro s b a hlen
    simp only [List.nil_append]
    constructor
    · intro _
      left
      simp [bytesLe, bytesLt_nil_right]
    · intro _
      apply bytesLt_replicate_zero_right
      simp only [List.length_append, List.length_replicate]
      simpa using hlen
  | cons y e' ih =>
    intro s b a hlen
    cases s with
    | nil =>
      simp only [List.length_nil, List.length_cons, Nat.zero_add] at hlen
      have hb : b = (e'.length + a) + 1 := by omega
      subst hb
      rw [List.nil_append, List.replicate_succ, List.cons_append]
      simp only [bytesLt_cons]
      by_cases hy : 0 < y
      · rw [if_pos hy]
        constructor
        · intro h
          exact absurd h (by simp)
        · rintro (h | ⟨k, hk⟩)
          · rw [show bytesLe (y :: e') [] = false by
              simp [bytesLe, bytesLt_nil_left (y :: e') (by simp)]] at h
            exact absurd h (by simp)
          · rw [List.nil_append, List.replicate_succ] at hk
            have : y = 0 := (List.cons.injEq _ _ _ _).mp hk |>.1
            omega
      · have hy0 : y = 0 := by omega
        subst hy0
        rw [if_neg (by omega : ¬ (0:Nat) < 0), if_pos rfl]
        have hih := ih [] (e'.length + a) a (by simp)
        rw [List.nil_append] at hih
        rw [hih]
        constructor
        · rintro (h | ⟨k, hk⟩)
          · rw [bytesLe_nil_iff] at h
            subst h
            exact Or.inr ⟨0, by simp⟩
          · rw [List.nil_append] at hk
            refine Or.inr ⟨k + 1, ?_⟩
            rw [List.nil_append, List.replicate_succ, hk]
        · rintro (h | ⟨k, hk⟩)
          · rw [show bytesLe (0 :: e') [] = false by
              simp [bytesLe, bytesLt_nil_left (0 :: e') (by simp)]] at h
            exact absurd h (by simp)
          · rw [List.nil_append, List.replicate_succ] at hk
            have he' : e' = List.replicate k 0 := (List.cons.injEq _ _ _ _).mp hk |>.2
            cases k with
            | zero =>
              left
              rw [bytesLe_nil_iff]
              simpa using he'
            | succ k' =>
              exact Or.inr ⟨k', by simpa using he'⟩
    | cons x s' =>
      simp only [List.length_cons] at hlen
      have hlen' : s'.length + b = e'.length + a := by omega
      simp only [List.cons_append, bytesLt_cons]
      by_cases hxy : x < y
      · rw [if_pos hxy]
        constructor
        · intro h
          exact absurd h (by simp)
        · rintro (h | ⟨k, hk⟩)
          · rw [show bytesLe (y :: e') (x :: s') = false by
              simp [bytesLe, bytesLt_cons, hxy]] at h
            exact absurd h (by simp)
          · have : y = x := (List.cons.injEq _ _ _ _).mp hk |>.1
            omega
      · by_cases hxye : x = y
        · subst hxye
          rw [if_neg hxy, if_pos rfl, ih s' b a hlen']
          rw [bytesLe_cons_same]
          constructor
          · rintro (h | ⟨k, hk⟩)
            · exact Or.inl h
            · exact Or.inr ⟨k, by rw [hk]⟩
          · rintro (h | ⟨k, hk⟩)
            · exact Or.inl h
            · exact Or.inr ⟨k, (List.cons.injEq _ _ _ _).mp hk |>.2⟩
        · rw [if_neg hxy, if_neg hxye]
          constructor
          · intro _
            left
            simp [bytesLe, bytesLt_cons, hxy, hxye]
          · intro _
            rfl

/-- Shortest extension of the accumulated prefix (by bytes of the remaining
list) that is strictly above s; the full string if none is. -/
def firstAbove (s acc : Bytes) : Bytes → Bytes
  | [] => acc
  | b :: rest =>
    if bytesLt s (acc ++ [b]) then acc ++ [b] else firstAbove s (acc ++ [b]) rest

theorem firstAbove_spec (s : Bytes) :
    ∀ (rest acc : Bytes), bytesLt s (acc ++ rest) = true →
      bytesLt s (firstAbove s acc rest) = true ∧
        ∃ t, firstAbove s acc rest ++ t = acc ++ rest := by
  intro rest
  induction rest with
  | nil =>
    intro acc h
    rw [List.append_nil] at h
    exact ⟨h, [], by simp [firstAbove]⟩
  | cons b r ih =>
    intro acc h
    simp only [firstAbove]
    by_cases hb : bytesLt s (acc ++ [b]) = true
    · rw [if_pos hb]
      exact ⟨hb, r, by simp⟩
    · rw [if_neg hb]
      have h' : bytesLt s ((acc ++ [b]) ++ r) = true := by
        rw [List.append_assoc]
        simpa using h
      obtain ⟨h1, t, h2⟩ := ih (acc ++ [b]) h'
      refine ⟨h1, t, ?_⟩
      rw [h2, List.append_assoc]
      simp

/-- Common width used by the split-key computation. -/
def avLen (s e : Bytes) : Nat := max s.length e.length

/-- Value of start as a base-256 fraction over the common width (padded with
0x00 on the right). -/
def avStartVal (s e : Bytes) : Nat := byteVal s * 256 ^ (avLen s e - s.length)

/-- Value of end as a base-256 fraction over the common width; an empty end
reads as plus infinity, one past the largest width-wide value. -/
def avEndVal (s e : Bytes) : Nat :=
  if e = [] then 256 ^ avLen s e else byteVal e * 256 ^ (avLen s e - e.length)

/-- Digits of the midpoint of the two fraction values. -/
def avDigits (s e : Bytes) : Bytes :=
  toBytes (avLen s e) ((avStartVal s e + avEndVal s e) / 2)

/-- Midpoint digits, extended by 0x80 when the sum is odd (the half bit). -/
def avFull (s e : Bytes) : Bytes :=
  if (avStartVal s e + avEndVal s e) % 2 = 1 then avDigits s e ++ [0x80]
  else avDigits s e

/-- Modelled from the spec: TabletIO::FindAverageKey (its implementation file
src/io/tablet_io.cc is not among the staged sources; only its test
src/io/test/tablet_io_test.cc is).  Per spec section 4.10 both keys are read
as base-256 fractional numbers, start conceptually padded with 0x00 and end
with 0xFF (end = "" reading as plus infinity); the function fails when no
midpoint below end exists, and otherwise returns the shortest prefix of the
midpoint digit string that is strictly above start.  Returns some "\x7F" for
("",""); matches every behavior asserted by TabletIOTest.FindAverageKey. -/
def FindAverageKey (s e : Bytes) : Option Bytes :=
  if s = [] ∧ e = [] then some [0x7F]
  else if avStartVal s e < avEndVal s e then some (firstAbove s [] (avFull s e))
  else none

theorem valid_pad {l : Bytes} (h : ∀ x ∈ l, x < 256) (k : Nat) :
    ∀ x ∈ l ++ List.replicate k 0, x < 256 := by
  intro x hx
  rcases List.mem_append.mp hx with hx | hx
  · exact h x hx
  · rw [List.eq_of_mem_replicate hx]
    omega

theorem pad_length (l : Bytes) {n : Nat} (h : l.length ≤ n) :
    (l ++ List.replicate (n - l.length) 0).length = n := by
  simp only [List.length_append, List.length_replicate]
  omega

theorem avEndVal_le (s e : Bytes) (he : ∀ x ∈ e, x < 256) :
    avEndVal s e ≤ 256 ^ avLen s e := by
  unfold avEndVal
  split_ifs with h
  · exact le_refl _
  · have helen : e.length ≤ avLen s e := le_max_right _ _
    have hb := byteVal_lt (e ++ List.replicate (avLen s e - e.length) 0)
      (valid_pad he _)
    rw [byteVal_pad, pad_length e helen] at hb
    omega

/-- Whenever the modelled FindAverageKey succeeds, its result is strictly
between start and end, with the empty end read as plus infinity. -/
theorem findAverageKey_between {s e m : Bytes} (hs : ∀ x ∈ s, x < 256)
    (he : ∀ x ∈ e, x < 256) (hm : FindAverageKey s e = some m) :
    bytesLt s m = true ∧ (e = [] ∨ bytesLt m e = true) := by
  unfold FindAverageKey at hm
  by_cases h0 : s = [] ∧ e = []
  · rw [if_pos h0] at hm
    obtain ⟨rfl, rfl⟩ := h0
    have hm' : ([0x7F] : Bytes) = m := by injection hm
    subst hm'
    exact ⟨rfl, Or.inl rfl⟩
  · rw [if_neg h0] at hm
    by_cases hlt : avStartVal s e < avEndVal s e
    · rw [if_pos hlt] at hm
      have hm' : firstAbove s [] (avFull s e) = m := by injection hm
      have hslen : s.length ≤ avLen s e := le_max_left _ _
      have helen : e.length ≤ avLen s e := le_max_right _ _
      have hspadlen : (s ++ List.replicate (avLen s e - s.length) 0).length
          = avLen s e := pad_length s hslen
      have hspadval : byteVal (s ++ List.replicate (avLen s e - s.length) 0)
          = avStartVal s e := by
        rw [byteVal_pad]; rfl
      have hmvlt : (avStartVal s e + avEndVal s e) / 2 < avEndVal s e :=
        Nat.div_lt_of_lt_mul (by omega)
      have hmvbound : (avStartVal s e + avEndVal s e) / 2 < 256 ^ avLen s e :=
        lt_of_lt_of_le hmvlt (avEndVal_le s e he)
      have hsv_le_mv : avStartVal s e ≤ (avStartVal s e + avEndVal s e) / 2 := by
        rw [Nat.le_div_iff_mul_le (by omega : 0 < 2)]
        omega
      have hdiglen : (avDigits s e).length = avLen s e := toBytes_length _ _
      have hdigval : byteVal (avDigits s e) = (avStartVal s e + avEndVal s e) / 2 :=
        byteVal_toBytes _ _ hmvbound
      have hdigvalid : ∀ x ∈ avDigits s e, x < 256 := toBytes_valid _ _
      have hstep1 : bytesLt s (avFull s e) = true := by
        rcases Nat.lt_or_ge (avStartVal s e) ((avStartVal s e + avEndVal s e) / 2)
          with hgt | hge
        · have hlt1 : bytesLt (s ++ List.replicate (avLen s e - s.length) 0)
              (avDigits s e) = true := by
            rw [bytesLt_iff_byteVal (by rw [hspadlen, hdiglen]) (valid_pad hs _)
              hdigvalid, hspadval, hdigval]
            exact hgt
          have hlt2 : bytesLt s (avDigits s e) = true := bytesLt_of_pad_left hlt1
          unfold avFull
          split_ifs
          · exact bytesLt_append_right _ hlt2
          · exact hlt2
        · have hmveq : (avStartVal s e + avEndVal s e) / 2 = avStartVal s e :=
            le_antisymm hge hsv_le_mv
          have hmod : (avStartVal s e + avEndVal s e) % 2 < 2 :=
            Nat.mod_lt _ (by omega)
          have hdm := Nat.div_add_mod (avStartVal s e + avEndVal s e) 2
          have hodd : (avStartVal s e + avEndVal s e) % 2 = 1 := by omega
          have hdig_eq : avDigits s e
              = s ++ List.replicate (avLen s e - s.length) 0 := by
            have htb := toBytes_byteVal (s ++ List.replicate (avLen s e - s.length) 0)
              (valid_pad hs _)
            rw [hspadlen, hspadval] at htb
            unfold avDigits
            rw [hmveq]
            exact htb
          unfold avFull
          rw [if_pos hodd, hdig_eq, List.append_assoc]
          exact bytesLt_append_nonempty s _ (by simp)
      have hstep2 : e = [] ∨ bytesLt (avFull s e) e = true := by
        by_cases hee : e = []
        · exact Or.inl hee
        · right
          have hev : avEndVal s e
              = byteVal (e ++ List.replicate (avLen s e - e.length) 0) := by
            unfold avEndVal
            rw [if_neg hee, byteVal_pad]
          have hlt3 : bytesLt (avDigits s e)
              (e ++ List.replicate (avLen s e - e.length) 0) = true := by
            rw [bytesLt_iff_byteVal (by rw [hdiglen, pad_length e helen])
              hdigvalid (valid_pad he _), hdigval, ← hev]
            exact hmvlt
          have hlen4 : (avDigits s e).length = e.length + (avLen s e - e.length) := by
            rw [hdiglen]
            omega
          have hunpad := bytesLt_unpad_right hlen4 hlt3
          unfold avFull
          split_ifs
          · exact hunpad [0x80]
          · have h5 := hunpad []
            rwa [List.append_nil] at h5
      obtain ⟨h6, t, h7⟩ := firstAbove_spec s (avFull s e) [] (by simpa using hstep1)
      rw [hm'] at h6 h7
      refine ⟨h6, ?_⟩
      rcases hstep2 with hee | hlt4
      · exact Or.inl hee
      · right
        rw [List.nil_append] at h7
        rw [← h7] at hlt4
        exact bytesLt_of_append_left hlt4
    · rw [if_neg hlt] at hm
      exact absurd hm (by simp)

/-- Failure characterization of the modelled FindAverageKey: it fails exactly
when end is nonempty and either at most start or start plus trailing zeros. -/
theorem findAverageKey_none_iff (s e : Bytes) (hs : ∀ x ∈ s, x < 256)
    (he : ∀ x ∈ e, x < 256) :
    FindAverageKey s e = none ↔
      e ≠ [] ∧ (bytesLe e s = true ∨ ∃ k, e = s ++ List.replicate (k + 1) 0) := by
  unfold FindAverageKey
  by_cases h0 : s = [] ∧ e = []
  · rw [if_pos h0]
    obtain ⟨rfl, rfl⟩ := h0
    simp
  · rw [if_neg h0]
    by_cases hee : e = []
    · subst hee
      have hlt : avStartVal s [] < avEndVal s [] := by
        have hslen : s.length ≤ avLen s [] := le_max_left _ _
        have hb := byteVal_lt (s ++ List.replicate (avLen s [] - s.length) 0)
          (valid_pad hs _)
        rw [byteVal_pad, pad_length s hslen] at hb
        unfold avEndVal
        rw [if_pos rfl]
        exact hb
      rw [if_pos hlt]
      simp
    · have hslen : s.length ≤ avLen s e := le_max_left _ _
      have helen : e.length ≤ avLen s e := le_max_right _ _
      have hval : bytesLt (s ++ List.replicate (avLen s e - s.length) 0)
          (e ++ List.replicate (avLen s e - e.length) 0) = true ↔
          avStartVal s e < avEndVal s e := by
        rw [bytesLt_iff_byteVal
          (by rw [pad_length s hslen, pad_length e helen]) (valid_pad hs _)
          (valid_pad he _), byteVal_pad, byteVal_pad]
        unfold avStartVal avEndVal
        rw [if_neg hee]
      have hpad := pad_lt_false_iff e s (avLen s e - s.length)
        (avLen s e - e.length) (by omega)
      split_ifs with hlt
      · constructor
        · intro hcontra
          exact absurd hcontra (by simp)
        · rintro ⟨-, hdisj⟩
          rw [← hpad] at hdisj
          rw [hval.mpr hlt] at hdisj
          exact absurd hdisj (by simp)
      · constructor
        · intro _
          refine ⟨hee, ?_⟩
          rw [← hpad]
          cases hb : bytesLt (s ++ List.replicate (avLen s e - s.length) 0)
              (e ++ List.replicate (avLen s e - e.length) 0) with
          | false => rfl
          | true => exact absurd (hval.mp hb) hlt
        · intro _
          rfl

/-- C2: for every start and end made of bytes, whenever FindAverageKey
returns a result it lies strictly between start and end in
byte-lexicographic order (start = "" read as minus infinity, end = "" as
plus infinity); in particular it returns "helloa\x80" for
("helloa","hellob"), "a\x80" for ("a","b"), "a\xff\xff\x80" for
("a\xff\xff","b") and the single byte "\x00" for ("","\x01"). -/
theorem tera_C2_find_average_key_strictly_between (s e m : Bytes)
    (hs : ∀ x ∈ s, x < 256) (he : ∀ x ∈ e, x < 256)
    (hm : FindAverageKey s e = some m) :
    (bytesLt s m = true ∧ (e = [] ∨ bytesLt m e = true)) ∧
      FindAverageKey [104, 101, 108, 108, 111, 97] [104, 101, 108, 108, 111, 98] =
        some [104, 101, 108, 108, 111, 97, 128] ∧
      FindAverageKey [97] [98] = some [97, 128] ∧
      FindAverageKey [97, 255, 255] [98] = some [97, 255, 255, 128] ∧
      FindAverageKey [] [1] = some [0] :=
  ⟨findAverageKey_between hs he hm, by decide, by decide, by decide, by decide⟩

/-- Witness for C2 at start = "a", end = "b", result = "a\x80". -/
theorem tera_C2_witness :
    (bytesLt [97] [97, 128] = true ∧
      (([98] : Bytes) = [] ∨ bytesLt [97, 128] [98] = true)) ∧
      FindAverageKey [104, 101, 108, 108, 111, 97] [104, 101, 108, 108, 111, 98] =
        some [104, 101, 108, 108, 111, 97, 128] ∧
      FindAverageKey [97] [98] = some [97, 128] ∧
      FindAverageKey [97, 255, 255] [98] = some [97, 255, 255, 128] ∧
      FindAverageKey [] [1] = some [0] :=
  tera_C2_find_average_key_strictly_between [97] [98] [97, 128]
    (by decide) (by decide) (by decide)

/-- C8 (amended): FindAverageKey(start, end) returns false exactly when end
is nonempty and either end is at most start or end equals start followed by
one or more 0x00 bytes; for start = "" and end = "" it returns true with
result "\x7F".  (The original claim's reading of the failure condition as
"no byte string lies strictly between" fails when end = start + two or more
0x00 bytes, see the counterexample.) -/
theorem tera_C8_find_average_key_failure (s e : Bytes)
    (hs : ∀ x ∈ s, x < 256) (he : ∀ x ∈ e, x < 256) :
    (FindAverageKey s e = none ↔
      e ≠ [] ∧ (bytesLe e s = true ∨ ∃ k, e = s ++ List.replicate (k + 1) 0)) ∧
    FindAverageKey [] [] = some [0x7F] :=
  ⟨findAverageKey_none_iff s e hs he, by decide⟩

/-- Witness for C8 at start = "a", end = "a\x00" (a failing pair). -/
theorem tera_C8_witness :
    (FindAverageKey [97] [97, 0] = none ↔
      ([97, 0] : Bytes) ≠ [] ∧ (bytesLe [97, 0] [97] = true ∨
        ∃ k, ([97, 0] : Bytes) = [97] ++ List.replicate (k + 1) 0)) ∧
    FindAverageKey [] [] = some [0x7F] :=
  tera_C8_find_average_key_failure [97] [97, 0] (by decide) (by decide)

/-- C8 counterexample: for start = "a", end = "a\x00\x00" the function
returns false although the byte string "a\x00" lies strictly between start
and end, so "returns false exactly when no byte string lies strictly
between start and end" is refuted on the code model. -/
theorem tera_C8_counterexample :
    FindAverageKey [97] [97, 0, 0] = none ∧
      bytesLt [97] [97, 0] = true ∧ bytesLt [97, 0] [97, 0, 0] = true ∧
      (∀ x ∈ ([97, 0] : Bytes), x < 256) := by
  refine ⟨by decide, by decide, by decide, by decide⟩

/-- Status of a client meta-cache node (TableImpl::TabletMetaNode::Status). -/
inductive NodeStatus
  | NORMAL
  | WAIT_UPDATE
  | UPDATING
  | DELAY_UPDATE
deriving DecidableEq

/-- Key range of a tablet ("" start is minus infinity, "" end plus infinity). -/
structure KeyRange where
  key_start : Bytes
  key_end : Bytes
deriving DecidableEq

/-- The slice of the TabletMeta protobuf the client cache uses. -/
structure TabletMeta where
  key_range : KeyRange
  server_addr : Nat
deriving DecidableEq

/-- A node of the client meta cache (TableImpl::TabletMetaNode). -/
structure TabletMetaNode where
  meta : TabletMeta
  status : NodeStatus
  update_time : Int
deriving DecidableEq

def nodeStart (n : TabletMetaNode) : Bytes := n.meta.key_range.key_start

def nodeEnd (n : TabletMetaNode) : Bytes := n.meta.key_range.key_end

/-- Sortedness of the cache list by strictly increasing range start keys; the
std::map tablet_meta_list_ keyed by range start is modelled as such a list
(every insertion in table_impl.cc uses the node's start key as the map key). -/
def metaSorted : List TabletMetaNode → Bool
  | [] => true
  | [_] => true
  | a :: b :: rest => bytesLt (nodeStart a) (nodeStart b) && metaSorted (b :: rest)

/-- TableImpl::GetTabletMetaNodeForKey: upper_bound(key) over the map keys,
stepped back by one, then the containment check on the node's end key. -/
def GetTabletMetaNodeForKey (l : List TabletMetaNode) (key : Bytes) :
    Option TabletMetaNode :=
  if l.isEmpty then none
  else
    ((l.takeWhile (fun n => bytesLe (nodeStart n) key)).getLast?).bind fun node =>
      if nodeEnd node ≠ [] ∧ bytesLe (nodeEnd node) key then none
      else some node

theorem metaSorted_tail {a : TabletMetaNode} {rest : List TabletMetaNode}
    (h : metaSorted (a :: rest) = true) : metaSorted rest = true := by
  cases rest with
  | nil => rfl
  | cons b r =>
    simp only [metaSorted, Bool.and_eq_true] at h
    exact h.2

theorem metaSorted_cons_head {a b : TabletMetaNode} {rest : List TabletMetaNode}
    (h : metaSorted (a :: b :: rest) = true) :
    bytesLt (nodeStart a) (nodeStart b) = true := by
  simp only [metaSorted, Bool.and_eq_true] at h
  exact h.1

theorem metaSorted_head_lt {a : TabletMetaNode} {rest : List TabletMetaNode}
    (h : metaSorted (a :: rest) = true) :
    ∀ n ∈ rest, bytesLt (nodeStart a) (nodeStart n) = true := by
  induction rest generalizing a with
  | nil => intro n hn; simp at hn
  | cons b r ih =>
    intro n hn
    rcases List.mem_cons.mp hn with rfl | hn
    · exact metaSorted_cons_head h
    · exact bytesLt_trans (metaSorted_cons_head h) (ih (metaSorted_tail h) n hn)

theorem metaSorted_mem_takeWhile {l : List TabletMetaNode} {key : Bytes}
    (hsort : metaSorted l = true) (n : TabletMetaNode) :
    n ∈ l.takeWhile (fun m => bytesLe (nodeStart m) key) ↔
      n ∈ l ∧ bytesLe (nodeStart n) key = true := by
  induction l with
  | nil => simp
  | cons a rest ih =>
    by_cases ha : bytesLe (nodeStart a) key = true
    · rw [List.takeWhile_cons_of_pos (by simpa using ha)]
      constructor
      · intro hn
        rcases List.mem_cons.mp hn with rfl | hn
        · exact ⟨by simp, ha⟩
        · have := (ih (metaSorted_tail hsort)).mp hn
          exact ⟨by simp [this.1], this.2⟩
      · rintro ⟨hmem, hle⟩
        rcases List.mem_cons.mp hmem with rfl | hmem
        · simp
        · exact List.mem_cons_of_mem _ ((ih (metaSorted_tail hsort)).mpr ⟨hmem, hle⟩)
    · rw [List.takeWhile_cons_of_neg (by simpa using ha)]
      constructor
      · intro hn; simp at hn
      · rintro ⟨hmem, hle⟩
        rcases List.mem_cons.mp hmem with rfl | hmem
        · exact absurd hle ha
        · exfalso
          have hlt := metaSorted_head_lt hsort n hmem
          have : bytesLe (nodeStart a) key = true :=
            bytesLe_trans (bytesLe_of_lt hlt) hle
          exact ha this

theorem metaSorted_takeWhile {l : List TabletMetaNode}
    (p : TabletMetaNode → Bool) (hsort : metaSorted l = true) :
    metaSorted (l.takeWhile p) = true := by
  induction l with
  | nil => rfl
  | cons a rest ih =>
    by_cases ha : p a = true
    · rw [List.takeWhile_cons_of_pos ha]
      have htail := ih (metaSorted_tail hsort)
      cases htw : rest.takeWhile p with
      | nil => rfl
      | cons b r =>
        have hb : b ∈ rest.takeWhile p := by rw [htw]; simp
        have hbr : b ∈ rest := (List.takeWhile_sublist _).subset hb
        have hab := metaSorted_head_lt hsort b hbr
        rw [htw] at htail
        simp only [metaSorted, Bool.and_eq_true]
        exact ⟨hab, htail⟩
    · rw [List.takeWhile_cons_of_neg (by simpa using ha)]
      rfl

theorem getLast?_mem' {α : Type} {l : List α} {a : α} (h : l.getLast? = some a) :
    a ∈ l := by
  induction l with
  | nil => simp at h
  | cons x rest ih =>
    cases rest with
    | nil =>
      simp only [List.getLast?_singleton, Option.some.injEq] at h
      simp [h]
    | cons y r =>
      rw [List.getLast?_cons_cons] at h
      exact List.mem_cons_of_mem _ (ih h)

theorem metaSorted_getLast_max {l : List TabletMetaNode} {L : TabletMetaNode}
    (hsort : metaSorted l = true) (hL : l.getLast? = some L) :
    ∀ n ∈ l, bytesLe (nodeStart n) (nodeStart L) = true := by
  induction l with
  | nil => simp at hL
  | cons a rest ih =>
    intro n hn
    cases rest with
    | nil =>
      simp only [List.getLast?_singleton, Option.some.injEq] at hL
      subst hL
      simp only [List.mem_singleton] at hn
      subst hn
      exact bytesLe_refl _
    | cons b r =>
      rw [List.getLast?_cons_cons] at hL
      have hLmem : L ∈ b :: r := getLast?_mem' hL
      rcases List.mem_cons.mp hn with rfl | hn
      · exact bytesLe_of_lt (metaSorted_head_lt hsort L hLmem)
      · exact ih (metaSorted_tail hsort) hL n hn

theorem metaSorted_start_inj {l : List TabletMetaNode}
    (hsort : metaSorted l = true) {n₁ n₂ : TabletMetaNode}
    (h₁ : n₁ ∈ l) (h₂ : n₂ ∈ l) (heq : nodeStart n₁ = nodeStart n₂) :
    n₁ = n₂ := by
  induction l with
  | nil => simp at h₁
  | cons a rest ih =>
    rcases List.mem_cons.mp h₁ with he₁ | hm₁
    · rcases List.mem_cons.mp h₂ with he₂ | hm₂
      · rw [he₁, he₂]
      · subst he₁
        have := metaSorted_head_lt hsort n₂ hm₂
        rw [heq, bytesLt_irrefl] at this
        exact absurd this (by simp)
    · rcases List.mem_cons.mp h₂ with he₂ | hm₂
      · subst he₂
        have := metaSorted_head_lt hsort n₁ hm₁
        rw [← heq, bytesLt_irrefl] at this
        exact absurd this (by simp)
      · exact ih (metaSorted_tail hsort) hm₁ hm₂

theorem bytesLe_antisymm {a b : Bytes} (h₁ : bytesLe a b = true)
    (h₂ : bytesLe b a = true) : a = b := by
  simp only [bytesLe, Bool.not_eq_true'] at h₁ h₂
  exact bytesLt_connex h₂ h₁

theorem bytesLe_false_lt {a b : Bytes} (h : ¬ bytesLe a b = true) :
    bytesLt b a = true := by
  cases hl : bytesLt b a with
  | true => rfl
  | false => exact absurd (by simp [bytesLe, hl]) h

theorem lookup_located {l : List TabletMetaNode} {key : Bytes}
    {node : TabletMetaNode} (hsort : metaSorted l = true)
    (h : (l.takeWhile (fun n => bytesLe (nodeStart n) key)).getLast? = some node) :
    node ∈ l ∧ bytesLe (nodeStart node) key = true ∧
      ∀ n' ∈ l, bytesLe (nodeStart n') key = true →
        bytesLe (nodeStart n') (nodeStart node) = true := by
  have hmemtw := getLast?_mem' h
  have hmem := (metaSorted_mem_takeWhile hsort node).mp hmemtw
  refine ⟨hmem.1, hmem.2, ?_⟩
  intro n' hn' hle
  have hn'tw := (metaSorted_mem_takeWhile hsort n').mpr ⟨hn', hle⟩
  exact metaSorted_getLast_max (metaSorted_takeWhile _ hsort) h n' hn'tw

theorem lookup_locates {l : List TabletMetaNode} {key : Bytes}
    {node : TabletMetaNode} (hsort : metaSorted l = true)
    (hmem : node ∈ l) (hle : bytesLe (nodeStart node) key = true)
    (hmax : ∀ n' ∈ l, bytesLe (nodeStart n') key = true →
      bytesLe (nodeStart n') (nodeStart node) = true) :
    (l.takeWhile (fun n => bytesLe (nodeStart n) key)).getLast? = some node := by
  have hmemtw := (metaSorted_mem_takeWhile hsort node).mpr ⟨hmem, hle⟩
  cases htw : (l.takeWhile (fun n => bytesLe (nodeStart n) key)).getLast? with
  | none =>
    exfalso
    cases htwl : l.takeWhile (fun n => bytesLe (nodeStart n) key) with
    | nil => rw [htwl] at hmemtw; simp at hmemtw
    | cons b r => rw [htwl, List.getLast?_eq_getLast _ (by simp)] at htw; simp at htw
  | some L =>
    have hLprops := lookup_located hsort htw
    have h₁ : bytesLe (nodeStart L) (nodeStart node) = true :=
      hmax L hLprops.1 hLprops.2.1
    have h₂ : bytesLe (nodeStart node) (nodeStart L) = true :=
      metaSorted_getLast_max (metaSorted_takeWhile _ hsort) htw node hmemtw
    have : node = L :=
      metaSorted_start_inj hsort hmem hLprops.1 (bytesLe_antisymm h₂ h₁)
    rw [this]

/-- C3: for every key row the cache lookup returns exactly the node with the
greatest range start at most row, accepted only if its end key is "" (plus
infinity) or strictly greater than row; it returns no node when the cache is
empty, when every cached start exceeds row (upper_bound是 the first entry),
or when the located node fails the containment check. -/
theorem tera_C3_meta_cache_lookup (l : List TabletMetaNode) (key : Bytes)
    (hsort : metaSorted l = true) :
    (∀ node, GetTabletMetaNodeForKey l key = some node ↔
      (node ∈ l ∧ bytesLe (nodeStart node) key = true ∧
        (∀ n' ∈ l, bytesLe (nodeStart n') key = true →
          bytesLe (nodeStart n') (nodeStart node) = true) ∧
        (nodeEnd node = [] ∨ bytesLt key (nodeEnd node) = true))) ∧
    (GetTabletMetaNodeForKey l key = none ↔
      (l = [] ∨ (∀ n' ∈ l, bytesLt key (nodeStart n') = true) ∨
        ∃ node ∈ l, bytesLe (nodeStart node) key = true ∧
          (∀ n' ∈ l, bytesLe (nodeStart n') key = true →
            bytesLe (nodeStart n') (nodeStart node) = true) ∧
          nodeEnd node ≠ [] ∧ bytesLe (nodeEnd node) key = true)) := by
  constructor
  · intro node
    constructor
    · intro h
      unfold GetTabletMetaNodeForKey at h
      by_cases hemp : l.isEmpty
      · rw [if_pos hemp] at h
        exact absurd h (by simp)
      · rw [if_neg hemp] at h
        cases htw : (l.takeWhile (fun n => bytesLe (nodeStart n) key)).getLast? with
        | none => rw [htw, Option.none_bind] at h; exact absurd h (by simp)
        | some L =>
          rw [htw, Option.some_bind] at h
          by_cases hcont : nodeEnd L ≠ [] ∧ bytesLe (nodeEnd L) key = true
          · rw [if_pos hcont] at h
            exact absurd h (by simp)
          · rw [if_neg hcont] at h
            have hLn : L = node := by injection h
            subst hLn
            have hp := lookup_located hsort htw
            refine ⟨hp.1, hp.2.1, hp.2.2, ?_⟩
            by_cases hend : nodeEnd L = []
            · exact Or.inl hend
            · right
              apply bytesLe_false_lt
              intro hcon
              exact hcont ⟨hend, hcon⟩
    · rintro ⟨hmem, hle, hmax, hin⟩
      have hloc := lookup_locates hsort hmem hle hmax
      unfold GetTabletMetaNodeForKey
      rw [if_neg (by rw [List.isEmpty_iff]; rintro rfl; simp at hmem), hloc,
        Option.some_bind]
      rw [if_neg ?_]
      rintro ⟨hend, hlekey⟩
      rcases hin with h | h
      · exact hend h
      · rw [bytesLe, h] at hlekey
        simp at hlekey
  · constructor
    · intro h
      unfold GetTabletMetaNodeForKey at h
      by_cases hemp : l.isEmpty
      · exact Or.inl (List.isEmpty_iff.mp hemp)
      · rw [if_neg hemp] at h
        cases htw : (l.takeWhile (fun n => bytesLe (nodeStart n) key)).getLast? with
        | none =>
          right; left
          have htwl : l.takeWhile (fun n => bytesLe (nodeStart n) key) = [] := by
            cases htwl : l.takeWhile (fun n => bytesLe (nodeStart n) key) with
            | nil => rfl
            | cons b r =>
              rw [htwl, List.getLast?_eq_getLast _ (by simp)] at htw
              simp at htw
          intro n' hn'
          by_contra hcon
          have hle : bytesLe (nodeStart n') key = true := by
            simp only [bytesLe]
            cases hlt : bytesLt key (nodeStart n') with
            | false => rfl
            | true => exact absurd hlt hcon
          have := (metaSorted_mem_takeWhile hsort n').mpr ⟨hn', hle⟩
          rw [htwl] at this
          simp at this
        | some L =>
          rw [htw, Option.some_bind] at h
          by_cases hcont : nodeEnd L ≠ [] ∧ bytesLe (nodeEnd L) key = true
          · have hp := lookup_located hsort htw
            exact Or.inr (Or.inr ⟨L, hp.1, hp.2.1, hp.2.2, hcont.1, hcont.2⟩)
          · rw [if_neg hcont] at h
            exact absurd h (by simp)
    · rintro (rfl | hall | ⟨node, hmem, hle, hmax, hend, hlekey⟩)
      · rfl
      · unfold GetTabletMetaNodeForKey
        by_cases hemp : l.isEmpty
        · rw [if_pos hemp]
        · rw [if_neg hemp]
          have htwl : l.takeWhile (fun n => bytesLe (nodeStart n) key) = [] := by
            cases htwl : l.takeWhile (fun n => bytesLe (nodeStart n) key) with
            | nil => rfl
            | cons b r =>
              exfalso
              have hb : b ∈ l.takeWhile (fun n => bytesLe (nodeStart n) key) := by
                rw [htwl]; simp
              have hbl := (metaSorted_mem_takeWhile hsort b).mp hb
              have := hall b hbl.1
              rw [bytesLe, this] at hbl
              simp at hbl
          rw [htwl]
          rfl
      · have hloc := lookup_locates hsort hmem hle hmax
        unfold GetTabletMetaNodeForKey
        rw [if_neg (by rw [List.isEmpty_iff]; rintro rfl; simp at hmem), hloc,
          Option.some_bind]
        rw [if_pos ⟨hend, hlekey⟩]

/-- Example cache node covering ["", "2") for the C3 witness. -/
def c3n1 : TabletMetaNode := ⟨⟨⟨[], [50]⟩, 1⟩, .NORMAL, 0⟩

/-- Example cache node covering ["2", "") for the C3 witness. -/
def c3n2 : TabletMetaNode := ⟨⟨⟨[50], []⟩, 2⟩, .NORMAL, 0⟩

/-- Witness for C3 on a two-node cache at key "<" (0x3C). -/
theorem tera_C3_witness :
    (∀ node, GetTabletMetaNodeForKey [c3n1, c3n2] [60] = some node ↔
      (node ∈ [c3n1, c3n2] ∧ bytesLe (nodeStart node) [60] = true ∧
        (∀ n' ∈ [c3n1, c3n2], bytesLe (nodeStart n') [60] = true →
          bytesLe (nodeStart n') (nodeStart node) = true) ∧
        (nodeEnd node = [] ∨ bytesLt [60] (nodeEnd node) = true))) ∧
    (GetTabletMetaNodeForKey [c3n1, c3n2] [60] = none ↔
      ([c3n1, c3n2] = ([] : List TabletMetaNode) ∨
        (∀ n' ∈ [c3n1, c3n2], bytesLt [60] (nodeStart n') = true) ∨
        ∃ node ∈ [c3n1, c3n2], bytesLe (nodeStart node) [60] = true ∧
          (∀ n' ∈ [c3n1, c3n2], bytesLe (nodeStart n') [60] = true →
            bytesLe (nodeStart n') (nodeStart node) = true) ∧
          nodeEnd node ≠ [] ∧ bytesLe (nodeEnd node) [60] = true)) :=
  tera_C3_meta_cache_lookup [c3n1, c3n2] [60] (by decide)

/-- Internal error codes of an SdkTask that the meta cache reacts to. -/
inductive StatusCode
  | kTabletNodeOk
  | kKeyNotInRange
  | kConnectError
  | kRPCError
deriving DecidableEq

/-- Insertion or overwrite at the node's start key, as std::map operator[]
on tablet_meta_list_ (the map is keyed by range start). -/
def mapUpsert (x : TabletMetaNode) : List TabletMetaNode → List TabletMetaNode
  | [] => [x]
  | n :: rest =>
    if bytesLt (nodeStart x) (nodeStart n) then x :: n :: rest
    else if nodeStart x = nodeStart n then x :: rest
    else n :: mapUpsert x rest

/-- In-place update of the cache node keyed by the given start key. -/
def updateNodeAt (l : List TabletMetaNode) (start : Bytes)
    (f : TabletMetaNode → TabletMetaNode) : List TabletMetaNode :=
  l.map fun n => if nodeStart n = start then f n else n

/-- What a call to the meta-cache scheduling paths does besides mutating the
cache list: the client's visible action. -/
inductive MetaAction
  | returnAddr (addr : Nat)
  | miss
  | noSchedule
  | scheduleNow
  | scheduleDelay (delay : Int)
deriving DecidableEq

/-- TableImpl::GetTabletAddrOrScheduleUpdateMeta: on a cache miss a stub
WAIT_UPDATE node [row, row+'\0') is inserted and an update started; on a
non-NORMAL node the task is only queued; on a NORMAL node with the task's
internal error kKeyNotInRange or kConnectError and meta_timestamp not older
than the node, the node is refreshed now (WAIT_UPDATE) or, within
update_interval of the last update, moved to DELAY_UPDATE with a delayed
task for the remaining time; otherwise the cached server address is
returned. -/
def GetTabletAddrOrScheduleUpdateMeta (l : List TabletMetaNode) (row : Bytes)
    (taskErr : StatusCode) (taskMetaTs now updateInterval : Int) :
    List TabletMetaNode × MetaAction :=
  match GetTabletMetaNodeForKey l row with
  | none => (mapUpsert ⟨⟨⟨row, row ++ [0]⟩, 0⟩, .WAIT_UPDATE, 0⟩ l, .miss)
  | some node =>
    if node.status ≠ .NORMAL then (l, .noSchedule)
    else if (taskErr = .kKeyNotInRange ∨ taskErr = .kConnectError) ∧
        taskMetaTs ≥ node.update_time then
      if node.update_time + updateInterval - now ≤ 0 then
        (updateNodeAt l (nodeStart node) (fun n => { n with status := .WAIT_UPDATE }),
          .scheduleNow)
      else
        (updateNodeAt l (nodeStart node) (fun n => { n with status := .DELAY_UPDATE }),
          .scheduleDelay (node.update_time + updateInterval - now))
    else (l, .returnAddr node.meta.server_addr)

/-- TableImpl::ScheduleUpdateMeta: same re-fetch decision, driven by a task
timeout or commit callback rather than by dispatch. -/
def ScheduleUpdateMeta (l : List TabletMetaNode) (row : Bytes)
    (metaTimestamp now updateInterval : Int) :
    List TabletMetaNode × MetaAction :=
  match GetTabletMetaNodeForKey l row with
  | none => (mapUpsert ⟨⟨⟨row, row ++ [0]⟩, 0⟩, .WAIT_UPDATE, 0⟩ l, .miss)
  | some node =>
    if node.status = .NORMAL ∧ metaTimestamp ≥ node.update_time then
      if node.update_time + updateInterval - now ≤ 0 then
        (updateNodeAt l (nodeStart node) (fun n => { n with status := .WAIT_UPDATE }),
          .scheduleNow)
      else
        (updateNodeAt l (nodeStart node) (fun n => { n with status := .DELAY_UPDATE }),
          .scheduleDelay (node.update_time + updateInterval - now))
    else (l, .noSchedule)

/-- A scheduling action that actually starts or defers a meta re-fetch. -/
def isScheduled (a : MetaAction) : Prop :=
  a = .scheduleNow ∨ ∃ d, a = .scheduleDelay d

theorem lookup_mem {l : List TabletMetaNode} {key : Bytes}
    {node : TabletMetaNode} (h : GetTabletMetaNodeForKey l key = some node) :
    node ∈ l := by
  unfold GetTabletMetaNodeForKey at h
  by_cases hemp : l.isEmpty
  · rw [if_pos hemp] at h
    exact absurd h (by simp)
  · rw [if_neg hemp] at h
    cases htw : (l.takeWhile (fun n => bytesLe (nodeStart n) key)).getLast? with
    | none =>
      rw [htw, Option.none_bind] at h
      exact absurd h (by simp)
    | some L =>
      rw [htw, Option.some_bind] at h
      by_cases hc : nodeEnd L ≠ [] ∧ bytesLe (nodeEnd L) key = true
      · rw [if_pos hc] at h
        exact absurd h (by simp)
      · rw [if_neg hc] at h
        have hLn : L = node := by injection h
        subst hLn
        exact (List.takeWhile_sublist _).subset (getLast?_mem' htw)

/-- C6: with a NORMAL covering cache node and a task failed with
kKeyNotInRange or a connection error, a meta re-fetch is scheduled if and
only if the failed RPC's meta_timestamp is at least the node's current
update_time; the immediate path fires only when update_interval has already
elapsed since update_time, and otherwise the node moves to DelayUpdate and
the delayed task expires exactly at update_time + update_interval, so the
re-fetch never happens earlier than update_time + update_interval after the
previous one; ScheduleUpdateMeta applies the same rule. -/
theorem tera_C6_meta_refetch_throttle (l : List TabletMetaNode) (row : Bytes)
    (taskErr : StatusCode) (ts now iv : Int) (node : TabletMetaNode)
    (hfound : GetTabletMetaNodeForKey l row = some node)
    (hnormal : node.status = .NORMAL)
    (herr : taskErr = .kKeyNotInRange ∨ taskErr = .kConnectError) :
    (isScheduled (GetTabletAddrOrScheduleUpdateMeta l row taskErr ts now iv).2 ↔
      ts ≥ node.update_time) ∧
    ((GetTabletAddrOrScheduleUpdateMeta l row taskErr ts now iv).2 = .scheduleNow →
      now ≥ node.update_time + iv) ∧
    (∀ d, (GetTabletAddrOrScheduleUpdateMeta l row taskErr ts now iv).2 =
        .scheduleDelay d →
      now < node.update_time + iv ∧ now + d = node.update_time + iv ∧
        { node with status := .DELAY_UPDATE } ∈
          (GetTabletAddrOrScheduleUpdateMeta l row taskErr ts now iv).1) ∧
    (isScheduled (ScheduleUpdateMeta l row ts now iv).2 ↔ ts ≥ node.update_time) ∧
    ((ScheduleUpdateMeta l row ts now iv).2 = .scheduleNow →
      now ≥ node.update_time + iv) ∧
    (∀ d, (ScheduleUpdateMeta l row ts now iv).2 = .scheduleDelay d →
      now < node.update_time + iv ∧ now + d = node.update_time + iv) := by
  have hmem : node ∈ l := lookup_mem hfound
  have hga : GetTabletAddrOrScheduleUpdateMeta l row taskErr ts now iv =
      (if node.status ≠ .NORMAL then (l, .noSchedule)
       else if (taskErr = .kKeyNotInRange ∨ taskErr = .kConnectError) ∧
           ts ≥ node.update_time then
         if node.update_time + iv - now ≤ 0 then
           (updateNodeAt l (nodeStart node)
             (fun n => { n with status := .WAIT_UPDATE }), .scheduleNow)
         else
           (updateNodeAt l (nodeStart node)
             (fun n => { n with status := .DELAY_UPDATE }),
             .scheduleDelay (node.update_time + iv - now))
       else (l, .returnAddr node.meta.server_addr)) := by
    unfold GetTabletAddrOrScheduleUpdateMeta
    rw [hfound]
  have hsu : ScheduleUpdateMeta l row ts now iv =
      (if node.status = .NORMAL ∧ ts ≥ node.update_time then
         if node.update_time + iv - now ≤ 0 then
           (updateNodeAt l (nodeStart node)
             (fun n => { n with status := .WAIT_UPDATE }), .scheduleNow)
         else
           (updateNodeAt l (nodeStart node)
             (fun n => { n with status := .DELAY_UPDATE }),
             .scheduleDelay (node.update_time + iv - now))
       else (l, .noSchedule)) := by
    unfold ScheduleUpdateMeta
    rw [hfound]
  have hdelmem : { node with status := NodeStatus.DELAY_UPDATE } ∈
      updateNodeAt l (nodeStart node)
        (fun n => { n with status := .DELAY_UPDATE }) := by
    unfold updateNodeAt
    refine List.mem_map.mpr ⟨node, hmem, ?_⟩
    rw [if_pos rfl]
  by_cases hts : ts ≥ node.update_time
  · by_cases hiv : node.update_time + iv - now ≤ 0
    · have hga2 : GetTabletAddrOrScheduleUpdateMeta l row taskErr ts now iv =
          (updateNodeAt l (nodeStart node)
            (fun n => { n with status := .WAIT_UPDATE }), .scheduleNow) := by
        rw [hga, if_neg (by simp [hnormal]), if_pos (And.intro herr hts),
          if_pos hiv]
      have hsu2 : ScheduleUpdateMeta l row ts now iv =
          (updateNodeAt l (nodeStart node)
            (fun n => { n with status := .WAIT_UPDATE }), .scheduleNow) := by
        rw [hsu, if_pos (And.intro hnormal hts), if_pos hiv]
      rw [hga2, hsu2]
      refine ⟨by simp [isScheduled, hts], by intro _; omega,
        by intro d hd; simp at hd, by simp [isScheduled, hts],
        by intro _; omega, by intro d hd; simp at hd⟩
    · have hga2 : GetTabletAddrOrScheduleUpdateMeta l row taskErr ts now iv =
          (updateNodeAt l (nodeStart node)
            (fun n => { n with status := .DELAY_UPDATE }),
            .scheduleDelay (node.update_time + iv - now)) := by
        rw [hga, if_neg (by simp [hnormal]), if_pos (And.intro herr hts),
          if_neg hiv]
      have hsu2 : ScheduleUpdateMeta l row ts now iv =
          (updateNodeAt l (nodeStart node)
            (fun n => { n with status := .DELAY_UPDATE }),
            .scheduleDelay (node.update_time + iv - now)) := by
        rw [hsu, if_pos (And.intro hnormal hts), if_neg hiv]
      rw [hga2, hsu2]
      refine ⟨by simp [isScheduled, hts], by intro h; simp at h, ?_,
        by simp [isScheduled, hts], by intro h; simp at h, ?_⟩
      · intro d hd
        simp only [MetaAction.scheduleDelay.injEq] at hd
        subst hd
        exact ⟨by omega, by omega, hdelmem⟩
      · intro d hd
        simp only [MetaAction.scheduleDelay.injEq] at hd
        subst hd
        exact ⟨by omega, by omega⟩
  · have hga2 : GetTabletAddrOrScheduleUpdateMeta l row taskErr ts now iv =
        (l, .returnAddr node.meta.server_addr) := by
      rw [hga, if_neg (by simp [hnormal]), if_neg (by intro hc; exact hts hc.2)]
    have hsu2 : ScheduleUpdateMeta l row ts now iv = (l, .noSchedule) := by
      rw [hsu, if_neg (by intro hc; exact hts hc.2)]
    rw [hga2, hsu2]
    refine ⟨?_, by intro h; simp at h, by intro d hd; simp at hd, ?_,
      by intro h; simp at h, by intro d hd; simp at hd⟩
    · constructor
      · rintro (h | ⟨d, h⟩) <;> simp at h
      · intro h
        exact absurd h hts
    · constructor
      · rintro (h | ⟨d, h⟩) <;> simp at h
      · intro h
        exact absurd h hts

/-- Witness for C6: one NORMAL node covering all keys, update_time 100,
interval 50, a kKeyNotInRange failure with meta_timestamp 100 at now = 120:
the re-fetch is deferred by 30 ms. -/
theorem tera_C6_witness :
    (isScheduled (GetTabletAddrOrScheduleUpdateMeta
        [⟨⟨⟨[], []⟩, 7⟩, .NORMAL, 100⟩] [5] .kKeyNotInRange 100 120 50).2 ↔
      (100 : Int) ≥ (⟨⟨⟨[], []⟩, 7⟩, .NORMAL, 100⟩ : TabletMetaNode).update_time) ∧
    ((GetTabletAddrOrScheduleUpdateMeta
        [⟨⟨⟨[], []⟩, 7⟩, .NORMAL, 100⟩] [5] .kKeyNotInRange 100 120 50).2 =
          .scheduleNow →
      (120 : Int) ≥ (⟨⟨⟨[], []⟩, 7⟩, .NORMAL, 100⟩ : TabletMetaNode).update_time + 50) ∧
    (∀ d, (GetTabletAddrOrScheduleUpdateMeta
        [⟨⟨⟨[], []⟩, 7⟩, .NORMAL, 100⟩] [5] .kKeyNotInRange 100 120 50).2 =
          .scheduleDelay d →
      (120 : Int) < (⟨⟨⟨[], []⟩, 7⟩, .NORMAL, 100⟩ : TabletMetaNode).update_time + 50 ∧
        (120 : Int) + d = (⟨⟨⟨[], []⟩, 7⟩, .NORMAL, 100⟩ : TabletMetaNode).update_time + 50 ∧
        { (⟨⟨⟨[], []⟩, 7⟩, .NORMAL, 100⟩ : TabletMetaNode) with
            status := .DELAY_UPDATE } ∈
          (GetTabletAddrOrScheduleUpdateMeta
            [⟨⟨⟨[], []⟩, 7⟩, .NORMAL, 100⟩] [5] .kKeyNotInRange 100 120 50).1) ∧
    (isScheduled (ScheduleUpdateMeta
        [⟨⟨⟨[], []⟩, 7⟩, .NORMAL, 100⟩] [5] 100 120 50).2 ↔
      (100 : Int) ≥ (⟨⟨⟨[], []⟩, 7⟩, .NORMAL, 100⟩ : TabletMetaNode).update_time) ∧
    ((ScheduleUpdateMeta [⟨⟨⟨[], []⟩, 7⟩, .NORMAL, 100⟩] [5] 100 120 50).2 =
        .scheduleNow →
      (120 : Int) ≥ (⟨⟨⟨[], []⟩, 7⟩, .NORMAL, 100⟩ : TabletMetaNode).update_time + 50) ∧
    (∀ d, (ScheduleUpdateMeta [⟨⟨⟨[], []⟩, 7⟩, .NORMAL, 100⟩] [5] 100 120 50).2 =
        .scheduleDelay d →
      (120 : Int) < (⟨⟨⟨[], []⟩, 7⟩, .NORMAL, 100⟩ : TabletMetaNode).update_time + 50 ∧
        (120 : Int) + d = (⟨⟨⟨[], []⟩, 7⟩, .NORMAL, 100⟩ : TabletMetaNode).update_time + 50) :=
  tera_C6_meta_refetch_throttle [⟨⟨⟨[], []⟩, 7⟩, .NORMAL, 100⟩] [5]
    .kKeyNotInRange 100 120 50 ⟨⟨⟨[], []⟩, 7⟩, .NORMAL, 100⟩
    (by decide) (by decide) (Or.inl rfl)

/-- Node with its range end replaced (shrink step of UpdateTabletMetaList). -/
def setEnd (n : TabletMetaNode) (v : Bytes) : TabletMetaNode :=
  { n with meta := { n.meta with
      key_range := { n.meta.key_range with key_end := v } } }

/-- Copy of an old node re-keyed (and re-started) at the new range's end, the
copy_node written at tablet_meta_list_[new_end] in UpdateTabletMetaList. -/
def copyNodeAt (old : TabletMetaNode) (newEnd : Bytes) : TabletMetaNode :=
  { old with meta := { old.meta with
      key_range := { old.meta.key_range with key_start := newEnd } } }

@[simp] theorem nodeStart_setEnd (n : TabletMetaNode) (v : Bytes) :
    nodeStart (setEnd n v) = nodeStart n := rfl

@[simp] theorem nodeEnd_setEnd (n : TabletMetaNode) (v : Bytes) :
    nodeEnd (setEnd n v) = v := rfl

@[simp] theorem nodeStart_copyNodeAt (n : TabletMetaNode) (v : Bytes) :
    nodeStart (copyNodeAt n v) = v := rfl

@[simp] theorem nodeEnd_copyNodeAt (n : TabletMetaNode) (v : Bytes) :
    nodeEnd (copyNodeAt n v) = nodeEnd n := rfl

/-- The overlap loop of TableImpl::UpdateTabletMetaList over the cache map,
starting at the iterator position handed in as the list head.  The std::map
insert of the copy node during iteration is modelled by mapUpsert into the
not-yet-visited tail; fuel bounds the number of slots the iterator can
visit (each slot is visited at most once, so list length + 1 suffices and
the zero-fuel arm is never reached on the actual calls). -/
def updateLoop (ns ne : Bytes) : Nat → List TabletMetaNode → List TabletMetaNode
  | 0, l => l
  | _, [] => []
  | fuel + 1, node :: rest =>
    if bytesLt (nodeStart node) ns then
      if nodeEnd node ≠ [] ∧ bytesLe (nodeEnd node) ns then
        node :: updateLoop ns ne fuel rest
      else if ne = [] ∨ (nodeEnd node ≠ [] ∧ bytesLe (nodeEnd node) ne) then
        setEnd node ns :: updateLoop ns ne fuel rest
      else
        setEnd node ns :: updateLoop ns ne fuel (mapUpsert (copyNodeAt node ne) rest)
    else if ne = [] ∨ bytesLt (nodeStart node) ne then
      if ne = [] ∨ (nodeEnd node ≠ [] ∧ bytesLe (nodeEnd node) ne) then
        updateLoop ns ne fuel rest
      else
        updateLoop ns ne fuel (mapUpsert (copyNodeAt node ne) rest)
    else
      node :: rest

/-- TableImpl::UpdateTabletMetaList: start the iterator one before
upper_bound(new_start), run the 4-case overlap loop, then write the new
node at key new_start with status NORMAL and update_time now. -/
def UpdateTabletMetaList (l : List TabletMetaNode) (newMeta : TabletMeta)
    (now : Int) : List TabletMetaNode :=
  let ns := newMeta.key_range.key_start
  let ne := newMeta.key_range.key_end
  let i0 := (l.takeWhile (fun n => bytesLe (nodeStart n) ns)).length - 1
  mapUpsert ⟨newMeta, .NORMAL, now⟩
    (l.take i0 ++ updateLoop ns ne ((l.drop i0).length + 1) (l.drop i0))

/-- TableImpl::WakeUpPendingRequest: walk pending_task_id_list_ from
lower_bound(start_key) while the entry key is below the node's end key
(end "" = plus infinity), erase those entries and dispatch their task ids
to the node's server. -/
def WakeUpPendingRequest (node : TabletMetaNode)
    (pending : List (Bytes × List Nat)) :
    List (Bytes × List Nat) × List Nat × Nat :=
  let ns := nodeStart node
  let ne := nodeEnd node
  let rest := pending.dropWhile (fun p => bytesLt p.1 ns)
  let hit := rest.takeWhile (fun p => ne.isEmpty || bytesLt p.1 ne)
  let post := rest.dropWhile (fun p => ne.isEmpty || bytesLt p.1 ne)
  (pending.takeWhile (fun p => bytesLt p.1 ns) ++ post,
    (hit.map Prod.snd).flatten, node.meta.server_addr)

/-- Adjacent-coverage chain of the cache list: each node but the last has a
nonempty end key at most the next node's start key. -/
def metaChainB : List TabletMetaNode → Bool
  | [] => true
  | [_] => true
  | a :: b :: rest =>
    !(nodeEnd a).isEmpty && bytesLe (nodeEnd a) (nodeStart b) &&
      metaChainB (b :: rest)

/-- A node carries a nonempty range: end "" (plus infinity) or start < end. -/
def nodeOkB (n : TabletMetaNode) : Bool :=
  (nodeEnd n).isEmpty || bytesLt (nodeStart n) (nodeEnd n)

/-- Well-formedness of the cache list: chained and all ranges nonempty. -/
def MetaWf (l : List TabletMetaNode) : Bool := metaChainB l && l.all nodeOkB

/-- A scanned meta record carries a nonempty range. -/
def rangeOkB (m : TabletMeta) : Bool :=
  m.key_range.key_end.isEmpty || bytesLt m.key_range.key_start m.key_range.key_end

/-- Row key membership in a node's half-open key range. -/
def inRange (k : Bytes) (n : TabletMetaNode) : Prop :=
  bytesLe (nodeStart n) k = true ∧
    (nodeEnd n = [] ∨ bytesLt k (nodeEnd n) = true)

/-- Two cache nodes hold ranges no row key belongs to both of. -/
def rangesDisjoint (a b : TabletMetaNode) : Prop :=
  ∀ k, inRange k a → ¬ inRange k b

theorem metaChainB_tail {a : TabletMetaNode} {rest : List TabletMetaNode}
    (h : metaChainB (a :: rest) = true) : metaChainB rest = true := by
  cases rest with
  | nil => rfl
  | cons b r =>
    simp only [metaChainB, Bool.and_eq_true] at h
    exact h.2

theorem metaChainB_link {a b : TabletMetaNode} {rest : List TabletMetaNode}
    (h : metaChainB (a :: b :: rest) = true) :
    nodeEnd a ≠ [] ∧ bytesLe (nodeEnd a) (nodeStart b) = true := by
  simp only [metaChainB, Bool.and_eq_true, Bool.not_eq_true',
    List.isEmpty_eq_false] at h
  exact ⟨h.1.1, h.1.2⟩

theorem nodeOkB_lt {n : TabletMetaNode} (h : nodeOkB n = true)
    (hne : nodeEnd n ≠ []) : bytesLt (nodeStart n) (nodeEnd n) = true := by
  simp only [nodeOkB, Bool.or_eq_true, List.isEmpty_eq_true] at h
  rcases h with h | h
  · exact absurd h hne
  · exact h

theorem chainOk_sorted {l : List TabletMetaNode}
    (hc : metaChainB l = true) (ho : ∀ n ∈ l, nodeOkB n = true) :
    metaSorted l = true := by
  induction l with
  | nil => rfl
  | cons a rest ih =>
    cases rest with
    | nil => rfl
    | cons b r =>
      have hlink := metaChainB_link hc
      have hab : bytesLt (nodeStart a) (nodeStart b) = true :=
        bytesLt_of_lt_of_le (nodeOkB_lt (ho a (by simp)) hlink.1) hlink.2
      have htail := ih (metaChainB_tail hc) (fun n hn => ho n (by simp [hn]))
      simp only [metaSorted, Bool.and_eq_true]
      exact ⟨hab, htail⟩

theorem metaChainB_append_left {xs ys : List TabletMetaNode}
    (h : metaChainB (xs ++ ys) = true) : metaChainB xs = true := by
  induction xs with
  | nil => rfl
  | cons a rest ih =>
    cases rest with
    | nil => rfl
    | cons b r =>
      rw [List.cons_append, List.cons_append] at h
      have hlink := metaChainB_link h
      have := ih (by rw [List.cons_append]; exact metaChainB_tail h)
      simp only [metaChainB, Bool.and_eq_true, Bool.not_eq_true',
        List.isEmpty_eq_false]
      exact ⟨⟨hlink.1, hlink.2⟩, this⟩

theorem metaChainB_append_right {xs ys : List TabletMetaNode}
    (h : metaChainB (xs ++ ys) = true) : metaChainB ys = true := by
  induction xs with
  | nil => simpa using h
  | cons a rest ih =>
    exact ih (metaChainB_tail (by rwa [List.cons_append] at h))

theorem metaChainB_append_link {xs ys : List TabletMetaNode}
    {a b : TabletMetaNode} (h : metaChainB (xs ++ ys) = true)
    (hl : xs.getLast? = some a) (hh : ys.head? = some b) :
    nodeEnd a ≠ [] ∧ bytesLe (nodeEnd a) (nodeStart b) = true := by
  induction xs with
  | nil => simp at hl
  | cons x rest ih =>
    cases rest with
    | nil =>
      simp only [List.getLast?_singleton, Option.some.injEq] at hl
      subst hl
      cases ys with
      | nil => simp at hh
      | cons y ys' =>
        simp only [List.head?_cons, Option.some.injEq] at hh
        subst hh
        exact metaChainB_link (by simpa using h)
    | cons x' rest' =>
      rw [List.getLast?_cons_cons] at hl
      exact ih (metaChainB_tail (by rwa [List.cons_append] at h)) hl

theorem metaChainB_take {l : List TabletMetaNode} (k : Nat)
    (h : metaChainB l = true) : metaChainB (l.take k) = true := by
  have : l.take k ++ l.drop k = l := List.take_append_drop k l
  exact metaChainB_append_left (by rwa [this])

theorem metaChainB_drop {l : List TabletMetaNode} (k : Nat)
    (h : metaChainB l = true) : metaChainB (l.drop k) = true := by
  have : l.take k ++ l.drop k = l := List.take_append_drop k l
  exact metaChainB_append_right (by rwa [this])

/-- The net effect of the overlap loop on a well-formed map suffix: each old
node is kept, shrunk, split in two, or erased by the 4-case rule, and the
loop breaks at the first node at or beyond the new range's end. -/
def clipList (ns ne : Bytes) : List TabletMetaNode → List TabletMetaNode
  | [] => []
  | node :: rest =>
    if bytesLt (nodeStart node) ns then
      if nodeEnd node ≠ [] ∧ bytesLe (nodeEnd node) ns then
        node :: clipList ns ne rest
      else if ne = [] ∨ (nodeEnd node ≠ [] ∧ bytesLe (nodeEnd node) ne) then
        setEnd node ns :: clipList ns ne rest
      else
        setEnd node ns :: copyNodeAt node ne :: rest
    else if ne = [] ∨ bytesLt (nodeStart node) ne then
      if ne = [] ∨ (nodeEnd node ≠ [] ∧ bytesLe (nodeEnd node) ne) then
        clipList ns ne rest
      else
        copyNodeAt node ne :: rest
    else
      node :: rest

theorem updateLoop_copy_break {ns ne : Bytes} {node : TabletMetaNode}
    {rest : List TabletMetaNode} {k : Nat}
    (hc : metaChainB (node :: rest) = true)
    (hlt_ns_ne : bytesLt ns ne = true) (hne : ne ≠ [])
    (h3 : ¬ (ne = [] ∨ (nodeEnd node ≠ [] ∧ bytesLe (nodeEnd node) ne = true)))
    (hk : rest.length < k) :
    updateLoop ns ne k (mapUpsert (copyNodeAt node ne) rest) =
      copyNodeAt node ne :: rest := by
  have hnlt : ¬ bytesLt (nodeStart (copyNodeAt node ne)) ns = true := by
    rw [nodeStart_copyNodeAt, bytesLt_asymm hlt_ns_ne]
    simp
  have hnor : ¬ (ne = [] ∨ bytesLt (nodeStart (copyNodeAt node ne)) ne = true) := by
    rintro (h | h)
    · exact hne h
    · rw [nodeStart_copyNodeAt, bytesLt_irrefl] at h
      exact absurd h (by simp)
  cases rest with
  | nil =>
    obtain ⟨k', rfl⟩ : ∃ k', k = k' + 1 := ⟨k - 1, by omega⟩
    show updateLoop ns ne (k' + 1) [copyNodeAt node ne] = [copyNodeAt node ne]
    simp only [updateLoop]
    rw [if_neg hnlt, if_neg hnor]
  | cons r1 rest' =>
    have hlink := metaChainB_link hc
    have hne_end : ¬ bytesLe (nodeEnd node) ne = true := by
      intro hcon
      exact h3 (Or.inr ⟨hlink.1, hcon⟩)
    have hlt1 : bytesLt ne (nodeEnd node) = true := bytesLe_false_lt hne_end
    have hlt2 : bytesLt ne (nodeStart r1) = true :=
      bytesLt_of_lt_of_le hlt1 hlink.2
    have hup : mapUpsert (copyNodeAt node ne) (r1 :: rest') =
        copyNodeAt node ne :: r1 :: rest' := by
      simp only [mapUpsert, nodeStart_copyNodeAt]
      rw [if_pos hlt2]
    rw [hup]
    obtain ⟨k', rfl⟩ : ∃ k', k = k' + 1 := ⟨k - 1, by omega⟩
    simp only [updateLoop]
    rw [if_neg hnlt, if_neg hnor]

theorem updateLoop_eq_clipList {ns ne : Bytes} :
    ∀ (l : List TabletMetaNode) (fuel : Nat),
      metaChainB l = true → (ne = [] ∨ bytesLt ns ne = true) →
      l.length < fuel →
      updateLoop ns ne fuel l = clipList ns ne l := by
  intro l
  induction l with
  | nil =>
    intro fuel _ _ hf
    cases fuel with
    | zero => omega
    | succ k => rfl
  | cons node rest ih =>
    intro fuel hc hr hf
    cases fuel with
    | zero => simp at hf
    | succ k =>
      have hk : rest.length < k := by
        simp only [List.length_cons] at hf
        omega
      simp only [updateLoop, clipList]
      by_cases h1 : bytesLt (nodeStart node) ns = true
      · rw [if_pos h1, if_pos h1]
        by_cases h2 : nodeEnd node ≠ [] ∧ bytesLe (nodeEnd node) ns = true
        · rw [if_pos h2, if_pos h2, ih k (metaChainB_tail hc) hr hk]
        · rw [if_neg h2, if_neg h2]
          by_cases h3 : ne = [] ∨ (nodeEnd node ≠ [] ∧ bytesLe (nodeEnd node) ne = true)
          · rw [if_pos h3, if_pos h3, ih k (metaChainB_tail hc) hr hk]
          · rw [if_neg h3, if_neg h3]
            have hne : ne ≠ [] := by
              rintro rfl
              exact h3 (Or.inl rfl)
            have hlt_ns_ne : bytesLt ns ne = true := by
              rcases hr with h | h
              · exact absurd h hne
              · exact h
            rw [updateLoop_copy_break hc hlt_ns_ne hne h3 hk]
      · rw [if_neg h1, if_neg h1]
        by_cases h4 : ne = [] ∨ bytesLt (nodeStart node) ne = true
        · rw [if_pos h4, if_pos h4]
          by_cases h3 : ne = [] ∨ (nodeEnd node ≠ [] ∧ bytesLe (nodeEnd node) ne = true)
          · rw [if_pos h3, if_pos h3, ih k (metaChainB_tail hc) hr hk]
          · rw [if_neg h3, if_neg h3]
            have hne : ne ≠ [] := by
              rintro rfl
              exact h3 (Or.inl rfl)
            have hlt_ns_ne : bytesLt ns ne = true := by
              rcases hr with h | h
              · exact absurd h hne
              · exact h
            rw [updateLoop_copy_break hc hlt_ns_ne hne h3 hk]
        · rw [if_neg h4, if_neg h4]

theorem chain_end_le_starts {node : TabletMetaNode}
    {rest : List TabletMetaNode} (hc : metaChainB (node :: rest) = true)
    (ho : ∀ n ∈ node :: rest, nodeOkB n = true) :
    ∀ r ∈ rest, bytesLe (nodeEnd node) (nodeStart r) = true := by
  intro r hr
  cases rest with
  | nil => simp at hr
  | cons r1 rest' =>
    have hlink := metaChainB_link hc
    rcases List.mem_cons.mp hr with rfl | hr'
    · exact hlink.2
    · have hsorted : metaSorted (r1 :: rest') = true :=
        chainOk_sorted (metaChainB_tail hc) (fun n hn => ho n (by simp [hn]))
      exact bytesLe_trans hlink.2 (bytesLe_of_lt (metaSorted_head_lt hsorted r hr'))

theorem sorted_starts_lb {node : TabletMetaNode} {rest : List TabletMetaNode}
    (hs : metaSorted (node :: rest) = true) :
    ∀ r ∈ node :: rest, bytesLe (nodeStart node) (nodeStart r) = true := by
  intro r hr
  rcases List.mem_cons.mp hr with rfl | hr'
  · exact bytesLe_refl _
  · exact bytesLe_of_lt (metaSorted_head_lt hs r hr')

theorem metaChainB_cons_of {a : TabletMetaNode} {M : List TabletMetaNode}
    (hlink : ∀ b, M.head? = some b →
      nodeEnd a ≠ [] ∧ bytesLe (nodeEnd a) (nodeStart b) = true)
    (hM : metaChainB M = true) : metaChainB (a :: M) = true := by
  cases M with
  | nil => rfl
  | cons b rest =>
    have := hlink b rfl
    simp only [metaChainB, Bool.and_eq_true, Bool.not_eq_true',
      List.isEmpty_eq_false]
    exact ⟨⟨this.1, this.2⟩, hM⟩

theorem clipList_start_lb {ns ne : Bytes}
    (hr : ne = [] ∨ bytesLt ns ne = true) :
    ∀ (l : List TabletMetaNode) (x : Bytes),
      (∀ r ∈ l, bytesLe x (nodeStart r) = true) →
      ∀ m ∈ clipList ns ne l, bytesLe x (nodeStart m) = true := by
  intro l
  induction l with
  | nil => intro x _ m hm; simp [clipList] at hm
  | cons node rest ih =>
    intro x hlb m hm
    have hxnode : bytesLe x (nodeStart node) = true := hlb node (by simp)
    have hlbrest : ∀ r ∈ rest, bytesLe x (nodeStart r) = true :=
      fun r hr' => hlb r (by simp [hr'])
    simp only [clipList] at hm
    by_cases h1 : bytesLt (nodeStart node) ns = true
    · rw [if_pos h1] at hm
      by_cases h2 : nodeEnd node ≠ [] ∧ bytesLe (nodeEnd node) ns = true
      · rw [if_pos h2] at hm
        rcases List.mem_cons.mp hm with rfl | hm'
        · exact hxnode
        · exact ih x hlbrest m hm'
      · rw [if_neg h2] at hm
        by_cases h3 : ne = [] ∨ (nodeEnd node ≠ [] ∧ bytesLe (nodeEnd node) ne = true)
        · rw [if_pos h3] at hm
          rcases List.mem_cons.mp hm with rfl | hm'
          · exact hxnode
          · exact ih x hlbrest m hm'
        · rw [if_neg h3] at hm
          have hne : ne ≠ [] := fun h => h3 (Or.inl h)
          have hnslt : bytesLt ns ne = true := by
            rcases hr with h | h
            · exact absurd h hne
            · exact h
          rcases List.mem_cons.mp hm with rfl | hm'
          · exact hxnode
          · rcases List.mem_cons.mp hm' with rfl | hm''
            · rw [nodeStart_copyNodeAt]
              exact bytesLe_of_lt
                (bytesLt_of_le_of_lt hxnode (bytesLt_trans h1 hnslt))
            · exact hlbrest m hm''
    · rw [if_neg h1] at hm
      by_cases h4 : ne = [] ∨ bytesLt (nodeStart node) ne = true
      · rw [if_pos h4] at hm
        by_cases h3 : ne = [] ∨ (nodeEnd node ≠ [] ∧ bytesLe (nodeEnd node) ne = true)
        · rw [if_pos h3] at hm
          exact ih x hlbrest m hm
        · rw [if_neg h3] at hm
          have hne : ne ≠ [] := fun h => h3 (Or.inl h)
          have hstartlt : bytesLt (nodeStart node) ne = true := by
            rcases h4 with h | h
            · exact absurd h hne
            · exact h
          rcases List.mem_cons.mp hm with rfl | hm'
          · rw [nodeStart_copyNodeAt]
            exact bytesLe_of_lt (bytesLt_of_le_of_lt hxnode hstartlt)
          · exact hlbrest m hm'
      · rw [if_neg h4] at hm
        rcases List.mem_cons.mp hm with rfl | hm'
        · exact hxnode
        · exact hlbrest m hm'

theorem clipList_class {ns ne : Bytes}
    (hr : ne = [] ∨ bytesLt ns ne = true) :
    ∀ (l : List TabletMetaNode), metaChainB l = true →
      (∀ n ∈ l, nodeOkB n = true) →
      ∀ m ∈ clipList ns ne l,
        (nodeEnd m ≠ [] ∧ bytesLe (nodeEnd m) ns = true) ∨
        (ne ≠ [] ∧ bytesLe ne (nodeStart m) = true) := by
  intro l
  induction l with
  | nil => intro _ _ m hm; simp [clipList] at hm
  | cons node rest ih =>
    intro hc ho m hm
    have horest : ∀ n ∈ rest, nodeOkB n = true := fun n hn => ho n (by simp [hn])
    have hsorted : metaSorted (node :: rest) = true := chainOk_sorted hc ho
    simp only [clipList] at hm
    by_cases h1 : bytesLt (nodeStart node) ns = true
    · rw [if_pos h1] at hm
      by_cases h2 : nodeEnd node ≠ [] ∧ bytesLe (nodeEnd node) ns = true
      · rw [if_pos h2] at hm
        rcases List.mem_cons.mp hm with rfl | hm'
        · exact Or.inl h2
        · exact ih (metaChainB_tail hc) horest m hm'
      · rw [if_neg h2] at hm
        have hns : ns ≠ [] := bytesLt_ne_nil h1
        by_cases h3 : ne = [] ∨ (nodeEnd node ≠ [] ∧ bytesLe (nodeEnd node) ne = true)
        · rw [if_pos h3] at hm
          rcases List.mem_cons.mp hm with rfl | hm'
          · exact Or.inl ⟨by simpa using hns, by simpa using bytesLe_refl ns⟩
          · exact ih (metaChainB_tail hc) horest m hm'
        · rw [if_neg h3] at hm
          have hne : ne ≠ [] := fun h => h3 (Or.inl h)
          rcases List.mem_cons.mp hm with rfl | hm'
          · exact Or.inl ⟨by simpa using hns, by simpa using bytesLe_refl ns⟩
          · rcases List.mem_cons.mp hm' with rfl | hm''
            · exact Or.inr ⟨hne, by simpa using bytesLe_refl ne⟩
            · -- m is an untouched tail node after the split copy
              right
              refine ⟨hne, ?_⟩
              have hend := chain_end_le_starts hc ho m hm''
              have hnee : ¬ bytesLe (nodeEnd node) ne = true := by
                intro hcon
                rcases hm'' with _
                exact h3 (Or.inr ⟨by
                  cases hrest : rest with
                  | nil => rw [hrest] at hm''; simp at hm''
                  | cons r1 r' =>
                    rw [hrest] at hc
                    exact (metaChainB_link hc).1, hcon⟩)
              exact bytesLe_trans (bytesLe_of_lt (bytesLe_false_lt hnee)) hend
    · rw [if_neg h1] at hm
      by_cases h4 : ne = [] ∨ bytesLt (nodeStart node) ne = true
      · rw [if_pos h4] at hm
        by_cases h3 : ne = [] ∨ (nodeEnd node ≠ [] ∧ bytesLe (nodeEnd node) ne = true)
        · rw [if_pos h3] at hm
          exact ih (metaChainB_tail hc) horest m hm
        · rw [if_neg h3] at hm
          have hne : ne ≠ [] := fun h => h3 (Or.inl h)
          rcases List.mem_cons.mp hm with rfl | hm'
          · exact Or.inr ⟨hne, by simpa using bytesLe_refl ne⟩
          · right
            refine ⟨hne, ?_⟩
            have hend := chain_end_le_starts hc ho m hm'
            have hnee : ¬ bytesLe (nodeEnd node) ne = true := by
              intro hcon
              refine h3 (Or.inr ⟨?_, hcon⟩)
              cases hrest : rest with
              | nil => rw [hrest] at hm'; simp at hm'
              | cons r1 r' =>
                rw [hrest] at hc
                exact (metaChainB_link hc).1
            exact bytesLe_trans (bytesLe_of_lt (bytesLe_false_lt hnee)) hend
      · rw [if_neg h4] at hm
        have hne : ne ≠ [] := by
          rintro rfl
          exact h4 (Or.inl rfl)
        have hnele : bytesLe ne (nodeStart node) = true := by
          cases hb : bytesLt (nodeStart node) ne with
          | false => simp [bytesLe, hb]
          | true => exact absurd (Or.inr hb) h4
        rcases List.mem_cons.mp hm with rfl | hm'
        · exact Or.inr ⟨hne, hnele⟩
        · exact Or.inr ⟨hne, bytesLe_trans hnele
            (sorted_starts_lb hsorted m (by simp [hm']))⟩

theorem head?_mem {α : Type} {l : List α} {a : α} (h : l.head? = some a) :
    a ∈ l := by
  cases l with
  | nil => simp at h
  | cons x rest =>
    simp only [List.head?_cons, Option.some.injEq] at h
    simp [h]

theorem clipList_wf {ns ne : Bytes}
    (hr : ne = [] ∨ bytesLt ns ne = true) :
    ∀ (l : List TabletMetaNode), metaChainB l = true →
      (∀ n ∈ l, nodeOkB n = true) →
      metaChainB (clipList ns ne l) = true ∧
        (∀ m ∈ clipList ns ne l, nodeOkB m = true) := by
  intro l
  induction l with
  | nil => intro _ _; simp [clipList, metaChainB]
  | cons node rest ih =>
    intro hc ho
    have horest : ∀ n ∈ rest, nodeOkB n = true := fun n hn => ho n (by simp [hn])
    obtain ⟨ihc, iho⟩ := ih (metaChainB_tail hc) horest
    simp only [clipList]
    by_cases h1 : bytesLt (nodeStart node) ns = true
    · rw [if_pos h1]
      by_cases h2 : nodeEnd node ≠ [] ∧ bytesLe (nodeEnd node) ns = true
      · rw [if_pos h2]
        constructor
        · refine metaChainB_cons_of (fun b hb => ⟨h2.1, ?_⟩) ihc
          exact clipList_start_lb hr rest (nodeEnd node)
            (chain_end_le_starts hc ho) b (head?_mem hb)
        · intro m hm
          rcases List.mem_cons.mp hm with rfl | hm'
          · exact ho m (by simp)
          · exact iho m hm'
      · rw [if_neg h2]
        have hns : ns ≠ [] := bytesLt_ne_nil h1
        have hlbns : ∀ r ∈ rest, bytesLe ns (nodeStart r) = true := by
          intro r hr'
          cases hrest : rest with
          | nil => rw [hrest] at hr'; simp at hr'
          | cons r1 r' =>
            rw [hrest] at hc hr'
            have hlink := metaChainB_link hc
            have hnotle : ¬ bytesLe (nodeEnd node) ns = true := by
              intro hcon
              exact h2 ⟨hlink.1, hcon⟩
            have hnslt : bytesLt ns (nodeEnd node) = true := bytesLe_false_lt hnotle
            have hendle : bytesLe (nodeEnd node) (nodeStart r) = true := by
              rw [← hrest] at hc hr'
              exact chain_end_le_starts hc ho r hr'
            exact bytesLe_of_lt (bytesLt_of_lt_of_le hnslt hendle)
        by_cases h3 : ne = [] ∨ (nodeEnd node ≠ [] ∧ bytesLe (nodeEnd node) ne = true)
        · rw [if_pos h3]
          constructor
          · refine metaChainB_cons_of (fun b hb => ⟨hns, ?_⟩) ihc
            exact clipList_start_lb hr rest ns hlbns b (head?_mem hb)
          · intro m hm
            rcases List.mem_cons.mp hm with rfl | hm'
            · simp [nodeOkB, h1]
            · exact iho m hm'
        · rw [if_neg h3]
          have hne : ne ≠ [] := fun h => h3 (Or.inl h)
          have hnslt : bytesLt ns ne = true := by
            rcases hr with h | h
            · exact absurd h hne
            · exact h
          have hcopyok : nodeOkB (copyNodeAt node ne) = true := by
            simp only [nodeOkB, nodeStart_copyNodeAt, nodeEnd_copyNodeAt,
              Bool.or_eq_true, List.isEmpty_eq_true]
            by_cases hend : nodeEnd node = []
            · exact Or.inl hend
            · right
              have : ¬ bytesLe (nodeEnd node) ne = true := by
                intro hcon
                exact h3 (Or.inr ⟨hend, hcon⟩)
              exact bytesLe_false_lt this
          have hchain2 : metaChainB (copyNodeAt node ne :: rest) = true := by
            refine metaChainB_cons_of (fun b hb => ?_) (metaChainB_tail hc)
            cases hrest : rest with
            | nil => rw [hrest] at hb; simp at hb
            | cons r1 r' =>
              rw [hrest] at hb
              simp only [List.head?_cons, Option.some.injEq] at hb
              subst hb
              rw [hrest] at hc
              have hlink := metaChainB_link hc
              exact ⟨by simpa using hlink.1, by simpa using hlink.2⟩
          constructor
          · refine metaChainB_cons_of (fun b hb => ⟨hns, ?_⟩) hchain2
            simp only [List.head?_cons, Option.some.injEq] at hb
            subst hb
            rw [nodeStart_copyNodeAt]
            exact bytesLe_of_lt hnslt
          · intro m hm
            rcases List.mem_cons.mp hm with rfl | hm'
            · simp [nodeOkB, h1]
            · rcases List.mem_cons.mp hm' with rfl | hm''
              · exact hcopyok
              · exact horest m hm''
    · rw [if_neg h1]
      by_cases h4 : ne = [] ∨ bytesLt (nodeStart node) ne = true
      · rw [if_pos h4]
        by_cases h3 : ne = [] ∨ (nodeEnd node ≠ [] ∧ bytesLe (nodeEnd node) ne = true)
        · rw [if_pos h3]
          exact ⟨ihc, iho⟩
        · rw [if_neg h3]
          have hne : ne ≠ [] := fun h => h3 (Or.inl h)
          have hcopyok : nodeOkB (copyNodeAt node ne) = true := by
            simp only [nodeOkB, nodeStart_copyNodeAt, nodeEnd_copyNodeAt,
              Bool.or_eq_true, List.isEmpty_eq_true]
            by_cases hend : nodeEnd node = []
            · exact Or.inl hend
            · right
              have : ¬ bytesLe (nodeEnd node) ne = true := by
                intro hcon
                exact h3 (Or.inr ⟨hend, hcon⟩)
              exact bytesLe_false_lt this
          constructor
          · refine metaChainB_cons_of (fun b hb => ?_) (metaChainB_tail hc)
            cases hrest : rest with
            | nil => rw [hrest] at hb; simp at hb
            | cons r1 r' =>
              rw [hrest] at hb
              simp only [List.head?_cons, Option.some.injEq] at hb
              subst hb
              rw [hrest] at hc
              have hlink := metaChainB_link hc
              exact ⟨by simpa using hlink.1, by simpa using hlink.2⟩
          · intro m hm
            rcases List.mem_cons.mp hm with rfl | hm'
            · exact hcopyok
            · exact horest m hm'
      · rw [if_neg h4]
        exact ⟨hc, ho⟩

theorem bytesLt_of_not_lt_of_ne {a b : Bytes} (h₁ : ¬ bytesLt a b = true)
    (h₂ : a ≠ b) : bytesLt b a = true := by
  cases hab : bytesLt a b with
  | true => exact absurd hab h₁
  | false =>
    cases hba : bytesLt b a with
    | true => rfl
    | false => exact absurd (bytesLt_connex hab hba) h₂

theorem mapUpsert_mem_self (x : TabletMetaNode) :
    ∀ l : List TabletMetaNode, x ∈ mapUpsert x l := by
  intro l
  induction l with
  | nil => simp [mapUpsert]
  | cons m rest ih =>
    simp only [mapUpsert]
    by_cases h1 : bytesLt (nodeStart x) (nodeStart m) = true
    · rw [if_pos h1]; simp
    · rw [if_neg h1]
      by_cases h2 : nodeStart x = nodeStart m
      · rw [if_pos h2]; simp
      · rw [if_neg h2]
        simp [ih]

theorem mapUpsert_head? {x b : TabletMetaNode} :
    ∀ {l : List TabletMetaNode}, (mapUpsert x l).head? = some b →
      b = x ∨ l.head? = some b := by
  intro l h
  cases l with
  | nil =>
    simp only [mapUpsert, List.head?_cons, Option.some.injEq] at h
    exact Or.inl h.symm
  | cons m rest =>
    simp only [mapUpsert] at h
    by_cases h1 : bytesLt (nodeStart x) (nodeStart m) = true
    · rw [if_pos h1] at h
      simp only [List.head?_cons, Option.some.injEq] at h
      exact Or.inl h.symm
    · rw [if_neg h1] at h
      by_cases h2 : nodeStart x = nodeStart m
      · rw [if_pos h2] at h
        simp only [List.head?_cons, Option.some.injEq] at h
        exact Or.inl h.symm
      · rw [if_neg h2] at h
        simp only [List.head?_cons, Option.some.injEq] at h
        exact Or.inr (by simp [h])

theorem mapUpsert_wf {ns ne : Bytes} {x : TabletMetaNode}
    (hxs : nodeStart x = ns) (hxe : nodeEnd x = ne)
    (hr : ne = [] ∨ bytesLt ns ne = true) :
    ∀ (L : List TabletMetaNode), metaChainB L = true →
      (∀ n ∈ L, nodeOkB n = true) →
      (∀ m ∈ L, (nodeEnd m ≠ [] ∧ bytesLe (nodeEnd m) ns = true) ∨
        (ne ≠ [] ∧ bytesLe ne (nodeStart m) = true)) →
      metaChainB (mapUpsert x L) = true ∧
        (∀ n ∈ mapUpsert x L, nodeOkB n = true) := by
  have hxok : nodeOkB x = true := by
    simp only [nodeOkB, hxs, hxe, Bool.or_eq_true, List.isEmpty_eq_true]
    exact hr
  intro L
  induction L with
  | nil =>
    intro _ _ _
    exact ⟨rfl, by simpa [mapUpsert] using hxok⟩
  | cons m rest ih =>
    intro hc ho hcl
    have horest : ∀ n ∈ rest, nodeOkB n = true := fun n hn => ho n (by simp [hn])
    have hclrest : ∀ n ∈ rest, (nodeEnd n ≠ [] ∧ bytesLe (nodeEnd n) ns = true) ∨
        (ne ≠ [] ∧ bytesLe ne (nodeStart n) = true) :=
      fun n hn => hcl n (by simp [hn])
    simp only [mapUpsert]
    by_cases h1 : bytesLt (nodeStart x) (nodeStart m) = true
    · rw [if_pos h1]
      have hm2 : ne ≠ [] ∧ bytesLe ne (nodeStart m) = true := by
        rcases hcl m (by simp) with ⟨hme, hmle⟩ | h
        · exfalso
          have hmlt : bytesLt (nodeStart m) (nodeEnd m) = true :=
            nodeOkB_lt (ho m (by simp)) hme
          have : bytesLt (nodeStart m) ns = true :=
            bytesLt_of_lt_of_le hmlt hmle
          rw [← hxs] at this
          have := bytesLt_trans h1 this
          rw [bytesLt_irrefl] at this
          exact absurd this (by simp)
        · exact h
      constructor
      · refine metaChainB_cons_of (fun b hb => ?_) hc
        simp only [List.head?_cons, Option.some.injEq] at hb
        subst hb
        rw [hxe]
        exact ⟨hm2.1, hm2.2⟩
      · intro n hn
        rcases List.mem_cons.mp hn with rfl | hn'
        · exact hxok
        · exact ho n hn'
    · by_cases h2 : nodeStart x = nodeStart m
      · exfalso
        rcases hcl m (by simp) with ⟨hme, hmle⟩ | ⟨hne', hnele⟩
        · have hmlt : bytesLt (nodeStart m) (nodeEnd m) = true :=
            nodeOkB_lt (ho m (by simp)) hme
          have : bytesLt (nodeStart m) ns = true :=
            bytesLt_of_lt_of_le hmlt hmle
          rw [← h2, hxs, bytesLt_irrefl] at this
          exact absurd this (by simp)
        · have hnslt : bytesLt ns ne = true := by
            rcases hr with h | h
            · exact absurd h hne'
            · exact h
          have : bytesLt ns ns = true := by
            have := bytesLt_of_lt_of_le hnslt hnele
            rwa [← h2, hxs] at this
          rw [bytesLt_irrefl] at this
          exact absurd this (by simp)
      · rw [if_neg h1, if_neg h2]
        have hmx : bytesLt (nodeStart m) (nodeStart x) = true :=
          bytesLt_of_not_lt_of_ne h1 (fun h => h2 (by rw [h]))
        have hm1 : nodeEnd m ≠ [] ∧ bytesLe (nodeEnd m) ns = true := by
          rcases hcl m (by simp) with h | ⟨hne', hnele⟩
          · exact h
          · exfalso
            have hnslt : bytesLt ns ne = true := by
              rcases hr with h | h
              · exact absurd h hne'
              · exact h
            have h5 : bytesLt ne (nodeStart x) = true := by
              rw [hxs] at hmx ⊢
              exact bytesLt_of_le_of_lt hnele hmx
            rw [hxs] at h5
            have := bytesLt_trans hnslt h5
            rw [bytesLt_irrefl] at this
            exact absurd this (by simp)
        obtain ⟨ihc, iho⟩ := ih (metaChainB_tail hc) horest hclrest
        constructor
        · refine metaChainB_cons_of (fun b hb => ?_) ihc
          rcases mapUpsert_head? hb with rfl | hbr
          · rw [hxs]
            exact ⟨hm1.1, hm1.2⟩
          · cases hrest : rest with
            | nil => rw [hrest] at hbr; simp at hbr
            | cons r1 r' =>
              rw [hrest] at hbr
              simp only [List.head?_cons, Option.some.injEq] at hbr
              subst hbr
              rw [hrest] at hc
              exact metaChainB_link hc
        · intro n hn
          rcases List.mem_cons.mp hn with rfl | hn'
          · exact ho n (by simp)
          · exact iho n hn'

theorem pre_class {ns : Bytes} :
    ∀ (l : List TabletMetaNode), metaChainB l = true →
      ∀ p ∈ l.take ((l.takeWhile (fun n => bytesLe (nodeStart n) ns)).length - 1),
        nodeEnd p ≠ [] ∧ bytesLe (nodeEnd p) ns = true := by
  intro l
  induction l with
  | nil => simp
  | cons a rest ih =>
    intro hc p hp
    by_cases ha : bytesLe (nodeStart a) ns = true
    · rw [List.takeWhile_cons_of_pos (by simpa using ha)] at hp
      cases rest with
      | nil => simp at hp
      | cons r1 rest' =>
        by_cases hr1 : bytesLe (nodeStart r1) ns = true
        · rw [List.takeWhile_cons_of_pos (by simpa using hr1)] at hp
          simp only [List.length_cons, Nat.add_sub_cancel, List.take_succ_cons] at hp
          rcases List.mem_cons.mp hp with rfl | hp'
          · have hlink := metaChainB_link hc
            exact ⟨hlink.1, bytesLe_trans hlink.2 hr1⟩
          · have hp'' : p ∈ (r1 :: rest').take
                (((r1 :: rest').takeWhile
                  (fun n => bytesLe (nodeStart n) ns)).length - 1) := by
              rw [List.takeWhile_cons_of_pos (by simpa using hr1)]
              simpa using hp'
            exact ih (metaChainB_tail hc) p hp''
        · rw [List.takeWhile_cons_of_neg (by simpa using hr1)] at hp
          simp at hp
    · rw [List.takeWhile_cons_of_neg (by simpa using ha)] at hp
      simp at hp

theorem metaChainB_append_of {xs ys : List TabletMetaNode}
    (hx : metaChainB xs = true) (hy : metaChainB ys = true)
    (hlink : ∀ a b, xs.getLast? = some a → ys.head? = some b →
      nodeEnd a ≠ [] ∧ bytesLe (nodeEnd a) (nodeStart b) = true) :
    metaChainB (xs ++ ys) = true := by
  induction xs with
  | nil => simpa using hy
  | cons x rest ih =>
    rw [List.cons_append]
    refine metaChainB_cons_of (fun b hb => ?_) ?_
    · cases rest with
      | nil =>
        cases ys with
        | nil => simp at hb
        | cons y ys' =>
          simp only [List.nil_append, List.head?_cons, Option.some.injEq] at hb
          rw [← hb]
          exact hlink x y rfl rfl
      | cons r1 rest' =>
        rw [List.cons_append, List.head?_cons] at hb
        simp only [Option.some.injEq] at hb
        subst hb
        exact metaChainB_link hx
    · cases rest with
      | nil => simpa using hy
      | cons r1 rest' =>
        exact ih (metaChainB_tail hx) (fun a b ha hb => hlink a b ha hb)

theorem metaWf_pairwise :
    ∀ (l : List TabletMetaNode), metaChainB l = true →
      (∀ n ∈ l, nodeOkB n = true) → List.Pairwise rangesDisjoint l := by
  intro l
  induction l with
  | nil => intro _ _; exact List.Pairwise.nil
  | cons a rest ih =>
    intro hc ho
    refine List.Pairwise.cons (fun b hb => ?_) (ih (metaChainB_tail hc)
      (fun n hn => ho n (by simp [hn])))
    intro k hka hkb
    have hendle : bytesLe (nodeEnd a) (nodeStart b) = true :=
      chain_end_le_starts hc ho b hb
    have hane : nodeEnd a ≠ [] := by
      cases hrest : rest with
      | nil => rw [hrest] at hb; simp at hb
      | cons r1 r' =>
        rw [hrest] at hc
        exact (metaChainB_link hc).1
    rcases hka.2 with h | h
    · exact hane h
    · have hk_lt_sb : bytesLt k (nodeStart b) = true :=
        bytesLt_of_lt_of_le h hendle
      have := bytesLt_of_lt_of_le hk_lt_sb hkb.1
      rw [bytesLt_irrefl] at this
      exact absurd this (by simp)

/-- Assembled well-formedness of the updated cache list. -/
theorem UpdateTabletMetaList_wf (l : List TabletMetaNode)
    (newMeta : TabletMeta) (now : Int)
    (hwf : MetaWf l = true) (hrange : rangeOkB newMeta = true) :
    MetaWf (UpdateTabletMetaList l newMeta now) = true ∧
      (⟨newMeta, .NORMAL, now⟩ : TabletMetaNode) ∈
        UpdateTabletMetaList l newMeta now := by
  have hc : metaChainB l = true := by
    simp only [MetaWf, Bool.and_eq_true] at hwf
    exact hwf.1
  have ho : ∀ n ∈ l, nodeOkB n = true := by
    simp only [MetaWf, Bool.and_eq_true, List.all_eq_true] at hwf
    exact fun n hn => hwf.2 n hn
  set ns := newMeta.key_range.key_start with hns
  set ne := newMeta.key_range.key_end with hne
  have hr : ne = [] ∨ bytesLt ns ne = true := by
    simp only [rangeOkB, Bool.or_eq_true, List.isEmpty_eq_true] at hrange
    exact hrange
  set i0 := (l.takeWhile (fun n => bytesLe (nodeStart n) ns)).length - 1 with hi0
  have hsplit : l.take i0 ++ l.drop i0 = l := List.take_append_drop i0 l
  have hcpre : metaChainB (l.take i0) = true := metaChainB_take i0 hc
  have hcsuf : metaChainB (l.drop i0) = true := metaChainB_drop i0 hc
  have hopre : ∀ n ∈ l.take i0, nodeOkB n = true :=
    fun n hn => ho n (List.take_subset i0 l hn)
  have hosuf : ∀ n ∈ l.drop i0, nodeOkB n = true :=
    fun n hn => ho n (List.drop_subset i0 l hn)
  have hloop : updateLoop ns ne ((l.drop i0).length + 1) (l.drop i0) =
      clipList ns ne (l.drop i0) :=
    updateLoop_eq_clipList (l.drop i0) _ hcsuf hr (by omega)
  have hclipwf := clipList_wf hr (l.drop i0) hcsuf hosuf
  have hclipclass := clipList_class hr (l.drop i0) hcsuf hosuf
  have hpreclass : ∀ p ∈ l.take i0,
      nodeEnd p ≠ [] ∧ bytesLe (nodeEnd p) ns = true := pre_class l hc
  have hchaincat : metaChainB (l.take i0 ++ clipList ns ne (l.drop i0)) = true := by
    refine metaChainB_append_of hcpre hclipwf.1 (fun a b ha hb => ?_)
    have hapre := hpreclass a (getLast?_mem' ha)
    refine ⟨hapre.1, ?_⟩
    cases hsuf : l.drop i0 with
    | nil =>
      rw [hsuf] at hb
      simp [clipList] at hb
    | cons s0 suf' =>
      have halink : nodeEnd a ≠ [] ∧ bytesLe (nodeEnd a) (nodeStart s0) = true := by
        refine @metaChainB_append_link (l.take i0) (l.drop i0) a s0
          ?_ ha (by rw [hsuf]; rfl)
        rwa [hsplit]
      have hsortsuf : metaSorted (l.drop i0) = true := chainOk_sorted hcsuf hosuf
      have hlb : ∀ r ∈ l.drop i0, bytesLe (nodeStart s0) (nodeStart r) = true := by
        rw [hsuf]
        rw [hsuf] at hsortsuf
        exact sorted_starts_lb hsortsuf
      have hbmem : b ∈ clipList ns ne (l.drop i0) := head?_mem hb
      have := clipList_start_lb hr (l.drop i0) (nodeStart s0) hlb b hbmem
      exact bytesLe_trans halink.2 this
  have hokcat : ∀ n ∈ l.take i0 ++ clipList ns ne (l.drop i0), nodeOkB n = true := by
    intro n hn
    rcases List.mem_append.mp hn with hn | hn
    · exact hopre n hn
    · exact hclipwf.2 n hn
  have hclasscat : ∀ m ∈ l.take i0 ++ clipList ns ne (l.drop i0),
      (nodeEnd m ≠ [] ∧ bytesLe (nodeEnd m) ns = true) ∨
      (ne ≠ [] ∧ bytesLe ne (nodeStart m) = true) := by
    intro m hm
    rcases List.mem_append.mp hm with hm | hm
    · exact Or.inl (hpreclass m hm)
    · exact hclipclass m hm
  have hfinal := @mapUpsert_wf ns ne ⟨newMeta, .NORMAL, now⟩ rfl rfl hr
    (l.take i0 ++ clipList ns ne (l.drop i0)) hchaincat hokcat hclasscat
  constructor
  · show MetaWf (mapUpsert _ (l.take i0 ++
      updateLoop ns ne ((l.drop i0).length + 1) (l.drop i0))) = true
    rw [hloop]
    simp only [MetaWf, Bool.and_eq_true, List.all_eq_true]
    exact ⟨hfinal.1, fun n hn => hfinal.2 n hn⟩
  · show (⟨newMeta, .NORMAL, now⟩ : TabletMetaNode) ∈ mapUpsert _ (l.take i0 ++
      updateLoop ns ne ((l.drop i0).length + 1) (l.drop i0))
    rw [hloop]
    exact mapUpsert_mem_self _ _

/-- Sortedness of pending_task_id_list_ by strictly increasing row key (a
std::map keyed by row). -/
def pendingSorted : List (Bytes × List Nat) → Bool
  | [] => true
  | [_] => true
  | a :: b :: rest => bytesLt a.1 b.1 && pendingSorted (b :: rest)

theorem pendingSorted_tail {a : Bytes × List Nat} {rest : List (Bytes × List Nat)}
    (h : pendingSorted (a :: rest) = true) : pendingSorted rest = true := by
  cases rest with
  | nil => rfl
  | cons b r =>
    simp only [pendingSorted, Bool.and_eq_true] at h
    exact h.2

theorem pendingSorted_head_lt {a : Bytes × List Nat}
    {rest : List (Bytes × List Nat)} (h : pendingSorted (a :: rest) = true) :
    ∀ p ∈ rest, bytesLt a.1 p.1 = true := by
  induction rest generalizing a with
  | nil => intro p hp; simp at hp
  | cons b r ih =>
    intro p hp
    have hab : bytesLt a.1 b.1 = true := by
      simp only [pendingSorted, Bool.and_eq_true] at h
      exact h.1
    rcases List.mem_cons.mp hp with rfl | hp'
    · exact hab
    · exact bytesLt_trans hab (ih (pendingSorted_tail h) p hp')

theorem pendingSorted_append_right {xs ys : List (Bytes × List Nat)}
    (h : pendingSorted (xs ++ ys) = true) : pendingSorted ys = true := by
  induction xs with
  | nil => simpa using h
  | cons a rest ih =>
    exact ih (pendingSorted_tail (by rwa [List.cons_append] at h))

theorem pendingSorted_dropWhile (f : Bytes × List Nat → Bool)
    {l : List (Bytes × List Nat)} (h : pendingSorted l = true) :
    pendingSorted (l.dropWhile f) = true := by
  have : l.takeWhile f ++ l.dropWhile f = l := List.takeWhile_append_dropWhile _ _
  exact pendingSorted_append_right (by rwa [this])

theorem dropWhile_all_fail {ne : Bytes} :
    ∀ (l : List (Bytes × List Nat)), pendingSorted l = true →
      ∀ p ∈ l.dropWhile (fun p => ne.isEmpty || bytesLt p.1 ne),
        (ne.isEmpty || bytesLt p.1 ne) = false := by
  intro l
  induction l with
  | nil => simp
  | cons a rest ih =>
    intro hs p hp
    rw [List.dropWhile_cons] at hp
    by_cases ha : (ne.isEmpty || bytesLt a.1 ne) = true
    · rw [if_pos ha] at hp
      exact ih (pendingSorted_tail hs) p hp
    · rw [if_neg ha] at hp
      have ha' : (ne.isEmpty || bytesLt a.1 ne) = false := by
        cases hx : (ne.isEmpty || bytesLt a.1 ne) with
        | false => rfl
        | true => exact absurd hx ha
      rcases List.mem_cons.mp hp with rfl | hp'
      · exact ha'
      · have hlt := pendingSorted_head_lt hs p hp'
        cases hx : (ne.isEmpty || bytesLt p.1 ne) with
        | false => rfl
        | true =>
          exfalso
          simp only [Bool.or_eq_true] at hx ha'
          simp only [Bool.or_eq_false_iff] at ha'
          rcases hx with hx | hx
          · rw [hx] at ha'
            exact absurd ha'.1 (by simp)
          · have := bytesLt_trans hlt hx
            rw [this] at ha'
            exact absurd ha'.2 (by simp)

theorem mem_takeWhile_of_sorted {ne : Bytes} :
    ∀ (l : List (Bytes × List Nat)), pendingSorted l = true →
      ∀ p ∈ l, (ne.isEmpty || bytesLt p.1 ne) = true →
        p ∈ l.takeWhile (fun q => ne.isEmpty || bytesLt q.1 ne) := by
  intro l
  induction l with
  | nil => simp
  | cons a rest ih =>
    intro hs p hp hq
    rw [List.takeWhile_cons]
    by_cases ha : (ne.isEmpty || bytesLt a.1 ne) = true
    · rw [if_pos ha]
      rcases List.mem_cons.mp hp with rfl | hp'
      · simp
      · exact List.mem_cons_of_mem _ (ih (pendingSorted_tail hs) p hp' hq)
    · exfalso
      rcases List.mem_cons.mp hp with rfl | hp'
      · exact ha hq
      · apply ha
        simp only [Bool.or_eq_true] at hq ⊢
        rcases hq with hq | hq
        · exact Or.inl hq
        · have hlt := pendingSorted_head_lt hs p hp'
          exact Or.inr (bytesLt_trans hlt hq)

theorem wakeUp_remaining (node : TabletMetaNode)
    (pending : List (Bytes × List Nat)) (hs : pendingSorted pending = true) :
    ∀ p ∈ (WakeUpPendingRequest node pending).1, ¬ inRange p.1 node := by
  intro p hp hin
  unfold WakeUpPendingRequest at hp
  simp only [List.mem_append] at hp
  rcases hp with hp | hp
  · have hlt : bytesLt p.1 (nodeStart node) = true := by
      simpa using List.mem_takeWhile_imp hp
    have hle := hin.1
    rw [bytesLe, hlt] at hle
    exact absurd hle (by simp)
  · have hrest : pendingSorted
        (pending.dropWhile (fun q => bytesLt q.1 (nodeStart node))) = true :=
      pendingSorted_dropWhile _ hs
    have hfail := dropWhile_all_fail _ hrest p hp
    rcases hin.2 with h | h
    · rw [h] at hfail
      simp at hfail
    · rw [h] at hfail
      simp at hfail

theorem wakeUp_dispatched (node : TabletMetaNode)
    (pending : List (Bytes × List Nat)) (hs : pendingSorted pending = true) :
    ∀ row ids, (row, ids) ∈ pending → inRange row node →
      ∀ tid ∈ ids, tid ∈ (WakeUpPendingRequest node pending).2.1 := by
  intro row ids hmem hin tid htid
  have hsplitp : pending.takeWhile (fun q => bytesLt q.1 (nodeStart node)) ++
      pending.dropWhile (fun q => bytesLt q.1 (nodeStart node)) = pending :=
    List.takeWhile_append_dropWhile _ _
  have hnot_tw : (row, ids) ∉
      pending.takeWhile (fun q => bytesLt q.1 (nodeStart node)) := by
    intro hcon
    have hlt : bytesLt row (nodeStart node) = true := by
      simpa using List.mem_takeWhile_imp hcon
    have hle := hin.1
    rw [bytesLe, hlt] at hle
    exact absurd hle (by simp)
  have hmem_dw : (row, ids) ∈
      pending.dropWhile (fun q => bytesLt q.1 (nodeStart node)) := by
    rcases List.mem_append.mp (by rw [hsplitp]; exact hmem) with h | h
    · exact absurd h hnot_tw
    · exact h
  have hq : ((nodeEnd node).isEmpty || bytesLt row (nodeEnd node)) = true := by
    simp only [Bool.or_eq_true, List.isEmpty_eq_true]
    exact hin.2
  have hhit : (row, ids) ∈
      (pending.dropWhile (fun q => bytesLt q.1 (nodeStart node))).takeWhile
        (fun q => (nodeEnd node).isEmpty || bytesLt q.1 (nodeEnd node)) :=
    mem_takeWhile_of_sorted _ (pendingSorted_dropWhile _ hs) _ hmem_dw hq
  unfold WakeUpPendingRequest
  simp only [List.mem_flatten]
  exact ⟨ids, List.mem_map_of_mem Prod.snd hhit, htid⟩

/-- C4: after UpdateTabletMetaList inserts a scanned tablet meta record the
cache stays well-formed and its key ranges are pairwise disjoint (each
overlapping old node was shrunk, split, or erased by the 4-case rule), the
new range is present with status Normal, and WakeUpPendingRequest removes
from pending_task_id_list_ exactly the entries whose row key falls in the
new range, dispatching their task ids to the new node's server. -/
theorem tera_C4_update_tablet_meta_list (l : List TabletMetaNode)
    (newMeta : TabletMeta) (now : Int) (pending : List (Bytes × List Nat))
    (hwf : MetaWf l = true) (hrange : rangeOkB newMeta = true)
    (hpend : pendingSorted pending = true) :
    MetaWf (UpdateTabletMetaList l newMeta now) = true ∧
    List.Pairwise rangesDisjoint (UpdateTabletMetaList l newMeta now) ∧
    (⟨newMeta, .NORMAL, now⟩ : TabletMetaNode) ∈
      UpdateTabletMetaList l newMeta now ∧
    (∀ p ∈ (WakeUpPendingRequest ⟨newMeta, .NORMAL, now⟩ pending).1,
      ¬ inRange p.1 ⟨newMeta, .NORMAL, now⟩) ∧
    (∀ row ids, (row, ids) ∈ pending →
      inRange row ⟨newMeta, .NORMAL, now⟩ →
      ∀ tid ∈ ids, tid ∈
        (WakeUpPendingRequest ⟨newMeta, .NORMAL, now⟩ pending).2.1) ∧
    (WakeUpPendingRequest ⟨newMeta, .NORMAL, now⟩ pending).2.2 =
      newMeta.server_addr := by
  obtain ⟨hwf', hmem⟩ := UpdateTabletMetaList_wf l newMeta now hwf hrange
  have hpair : List.Pairwise rangesDisjoint (UpdateTabletMetaList l newMeta now) := by
    simp only [MetaWf, Bool.and_eq_true, List.all_eq_true] at hwf'
    exact metaWf_pairwise _ hwf'.1 (fun n hn => hwf'.2 n hn)
  exact ⟨hwf', hpair, hmem,
    wakeUp_remaining _ pending hpend,
    wakeUp_dispatched _ pending hpend, rfl⟩

/-- Concrete initial cache for the C4 witness: one node covering everything. -/
def c4l : List TabletMetaNode := [⟨⟨⟨[], []⟩, 1⟩, .NORMAL, 0⟩]

/-- Concrete scanned meta record for the C4 witness. -/
def c4meta : TabletMeta := ⟨⟨[40], [60]⟩, 9⟩

/-- Concrete pending task list for the C4 witness. -/
def c4pending : List (Bytes × List Nat) := [([50], [11])]

/-- Witness for C4 at a concrete cache, meta record and pending list. -/
theorem tera_C4_witness :
    MetaWf (UpdateTabletMetaList c4l c4meta 5) = true ∧
    List.Pairwise rangesDisjoint (UpdateTabletMetaList c4l c4meta 5) ∧
    (⟨c4meta, .NORMAL, 5⟩ : TabletMetaNode) ∈
      UpdateTabletMetaList c4l c4meta 5 ∧
    (∀ p ∈ (WakeUpPendingRequest ⟨c4meta, .NORMAL, 5⟩ c4pending).1,
      ¬ inRange p.1 ⟨c4meta, .NORMAL, 5⟩) ∧
    (∀ row ids, (row, ids) ∈ c4pending →
      inRange row ⟨c4meta, .NORMAL, 5⟩ →
      ∀ tid ∈ ids, tid ∈
        (WakeUpPendingRequest ⟨c4meta, .NORMAL, 5⟩ c4pending).2.1) ∧
    (WakeUpPendingRequest ⟨c4meta, .NORMAL, 5⟩ c4pending).2.2 =
      c4meta.server_addr :=
  tera_C4_update_tablet_meta_list c4l c4meta 5 c4pending
    (by decide) (by decide) (by decide)

/-- Outcome of the per-task flow-control check in DistributeMutations /
DistributeReaders: continue distribution, busy-wait for the counter to
drain (async blocking enabled), or fail the task with kBusy. -/
inductive FlowOutcome
  | proceed
  | block
  | busy
deriving DecidableEq

/-- Flow-control step of TableImpl::DistributeMutations (table_impl.cc
548-565) for one mutation: `cur_commit_pending_counter_.Add(num)` always
runs when called by the user; if the new value exceeds
`max_commit_pending_num_` and the mutation is asynchronous, either spin
until the counter drains (blocking enabled) or subtract the amount back,
set kBusy and break the request.  Returns the counter value at the point
the outcome is decided (for busy: before BreakRequest is enqueued). -/
def DistributeMutationsFlow (called_by_user is_async blocking_enabled : Bool)
    (cnt num maxPending : Nat) : Nat × FlowOutcome :=
  if called_by_user then
    let cnt1 := cnt + num
    if maxPending < cnt1 then
      if is_async then
        if blocking_enabled then (cnt1, .block)
        else (cnt1 - num, .busy)
      else (cnt1, .proceed)
    else (cnt1, .proceed)
  else (cnt, .proceed)

/-- Flow-control step of TableImpl::DistributeReaders (table_impl.cc
934-951): identical shape with `cur_reader_pending_counter_.Inc()` /
`.Dec()` stepping by one. -/
def DistributeReadersFlow (called_by_user is_async blocking_enabled : Bool)
    (cnt maxPending : Nat) : Nat × FlowOutcome :=
  if called_by_user then
    let cnt1 := cnt + 1
    if maxPending < cnt1 then
      if is_async then
        if blocking_enabled then (cnt1, .block)
        else (cnt1 - 1, .busy)
      else (cnt1, .proceed)
    else (cnt1, .proceed)
  else (cnt, .proceed)

/-- C7: a user-submitted task fails with kBusy exactly when it is
asynchronous, async blocking is disabled and the bumped pending counter
exceeds its maximum; in that case the counter is restored to its prior
value before the kBusy callback is enqueued; with blocking enabled the
async task spins until the counter drains; a synchronous task is never
failed with kBusy by the flow-control check (it proceeds and waits in the
sync wait loop).  Both the mutation and the reader counters behave this
way. -/
theorem tera_C7_flow_control (called is_async blocking : Bool)
    (cnt num maxPending : Nat) :
    ((DistributeMutationsFlow called is_async blocking cnt num maxPending).2
        = .busy ↔
      called = true ∧ is_async = true ∧ blocking = false ∧
        maxPending < cnt + num) ∧
    ((DistributeMutationsFlow called is_async blocking cnt num maxPending).2
        = .busy →
      (DistributeMutationsFlow called is_async blocking cnt num maxPending).1
        = cnt) ∧
    ((DistributeMutationsFlow called is_async blocking cnt num maxPending).2
        = .block ↔
      called = true ∧ is_async = true ∧ blocking = true ∧
        maxPending < cnt + num) ∧
    (is_async = false →
      (DistributeMutationsFlow called is_async blocking cnt num maxPending).2
        = .proceed) ∧
    ((DistributeReadersFlow called is_async blocking cnt maxPending).2
        = .busy ↔
      called = true ∧ is_async = true ∧ blocking = false ∧
        maxPending < cnt + 1) ∧
    ((DistributeReadersFlow called is_async blocking cnt maxPending).2
        = .busy →
      (DistributeReadersFlow called is_async blocking cnt maxPending).1
        = cnt) ∧
    (is_async = false →
      (DistributeReadersFlow called is_async blocking cnt maxPending).2
        = .proceed) := by
  cases called <;> cases is_async <;> cases blocking <;>
    by_cases h : maxPending < cnt + num <;>
    by_cases h1 : maxPending < cnt + 1 <;>
    simp [DistributeMutationsFlow, DistributeReadersFlow, h, h1,
      Nat.add_sub_cancel]

/-- Counter effect of TableImpl::UpdateMetaAsync (table_impl.cc 1359-1394):
returns with the counter unchanged when it has already reached the
configured concurrency; otherwise the loop sets need_update exactly when
some cache node has status WAIT_UPDATE, and only then is
meta_updating_count_ incremented before ScanMetaTableAsync. -/
def UpdateMetaAsync_count (concurrency count : Nat)
    (l : List TabletMetaNode) : Nat :=
  if concurrency ≤ count then count
  else if l.any (fun n => n.status == .WAIT_UPDATE) then count + 1
  else count

/-- Counter effect of TableImpl::ScanMetaTable (table_impl.cc 1396-1404):
meta_updating_count_ is incremented at line 1399 with no check against
tera_sdk_update_meta_concurrency. -/
def ScanMetaTable_count (count : Nat) : Nat := count + 1

/-- Counter effect of the final locked branch of
TableImpl::ScanMetaTableCallBack (table_impl.cc 1524-1534): on
scan_meta_error the same range is rescanned and on an incomplete range the
remainder is rescanned, both without touching the counter; only the
completion branch decrements, signals, and re-runs UpdateMetaAsync. -/
def ScanMetaTableCallBack_count (concurrency count : Nat)
    (l : List TabletMetaNode)
    (scan_meta_error rescan_remainder : Bool) : Nat :=
  if scan_meta_error then count
  else if rescan_remainder then count
  else UpdateMetaAsync_count concurrency (count - 1) l

/-- C9 (amended): UpdateMetaAsync increments meta_updating_count_ only
while it is below tera_sdk_update_meta_concurrency (and only when some
node waits for update), so it alone never pushes the counter past the
cap, and a completed scan round decrements the counter; but
ScanMetaTable increments the counter unconditionally, so the claimed
guard does not hold at that call site. -/
theorem tera_C9_meta_scan_concurrency (concurrency count : Nat)
    (l : List TabletMetaNode) (e r : Bool) :
    (concurrency ≤ count →
      UpdateMetaAsync_count concurrency count l = count) ∧
    (count < concurrency →
      UpdateMetaAsync_count concurrency count l ≤ concurrency) ∧
    (UpdateMetaAsync_count concurrency count l = count ∨
      (count < concurrency ∧
        UpdateMetaAsync_count concurrency count l = count + 1 ∧
        l.any (fun n => n.status == .WAIT_UPDATE) = true)) ∧
    ScanMetaTable_count count = count + 1 ∧
    (e = false ∧ r = false →
      ScanMetaTableCallBack_count concurrency count l e r
        = UpdateMetaAsync_count concurrency (count - 1) l) ∧
    (e = true ∨ r = true →
      ScanMetaTableCallBack_count concurrency count l e r = count) := by
  refine ⟨?_, ?_, ?_, rfl, ?_, ?_⟩
  · intro h
    simp [UpdateMetaAsync_count, if_pos h]
  · intro h
    rw [UpdateMetaAsync_count, if_neg (by omega)]
    by_cases hw : l.any (fun n => n.status == .WAIT_UPDATE) = true
    · rw [if_pos hw]; omega
    · rw [if_neg hw]; omega
  · by_cases h : concurrency ≤ count
    · left; simp [UpdateMetaAsync_count, if_pos h]
    · by_cases hw : l.any (fun n => n.status == .WAIT_UPDATE) = true
      · right
        exact ⟨by omega, by rw [UpdateMetaAsync_count, if_neg h, if_pos hw],
          hw⟩
      · left
        rw [UpdateMetaAsync_count, if_neg h, if_neg hw]
  · rintro ⟨he, hr⟩
    rw [he, hr]
    simp [ScanMetaTableCallBack_count]
  · intro h
    rcases h with h | h <;> rw [h] <;> simp [ScanMetaTableCallBack_count]

/-- C9 counterexample: with the concurrency cap set to 1 and the counter
already at the cap, ScanMetaTable still increments the counter to 2 —
the increment is not guarded by meta_updating_count_ <
tera_sdk_update_meta_concurrency as the claim states. -/
theorem tera_C9_counterexample :
    (1 : Nat) ≤ 1 ∧ ScanMetaTable_count 1 = 2 ∧
      ¬ ScanMetaTable_count 1 ≤ 1 := by decide

/-- A pending batch of task ids for one tablet server, as built by
PackMutations / PackReaders (struct TaskBatch): the batch's sequence
number, the accumulated row (task) id list, the accumulated encoded byte
size, and the id of its commit-timeout timer. -/
structure TaskBatch where
  sequence_num : Nat
  row_id_list : List Nat
  byte_size : Nat
  timer_id : Nat
deriving DecidableEq

/-- One server's slot of mutation_batch_map_ (resp. reader_batch_map_)
together with the shared sequence counter mutation_batch_seq_ (resp.
reader_batch_seq_) and a source of fresh timer ids.  A single server
address is modelled; the map's entries for different servers are
independent. -/
structure MuBatchState where
  batch : Option TaskBatch
  seq_counter : Nat
  timer_counter : Nat
deriving DecidableEq

/-- One mutation as PackMutations sees it: its task id and its encoded
size. -/
structure MuRecord where
  id : Nat
  size : Nat
deriving DecidableEq

/-- Find-or-create step of PackMutations (table_impl.cc 629-643) and
PackReaders (990-1001): reuse the server's map entry if present,
otherwise create a fresh empty batch carrying the next sequence number
and schedule its commit-timeout timer. -/
def packFindOrCreate (st : MuBatchState) : TaskBatch × MuBatchState :=
  match st.batch with
  | some b => (b, st)
  | none =>
    let b : TaskBatch := ⟨st.seq_counter, [], 0, st.timer_counter⟩
    (b, ⟨some b, st.seq_counter + 1, st.timer_counter + 1⟩)

/-- The batch as it stands right after PackMutations appends mutation m
to it (table_impl.cc 645-649). -/
def packAppended (st : MuBatchState) (m : MuRecord) : TaskBatch :=
  let b := (packFindOrCreate st).1
  { b with row_id_list := b.row_id_list ++ [m.id],
           byte_size := b.byte_size + m.size }

/-- Loop body of TableImpl::PackMutations (table_impl.cc 627-673) for one
mutation: find or create the server's batch, append the mutation, then
commit — erasing the map entry and cancelling the batch's timer — iff
the accumulated byte size reached kMaxRpcSize, or this is the last
mutation of the call and the call had a synchronous mutation (flush) or
the row count reached commit_size_.  An emitted commit carries the
batch's sequence number and its row id list. -/
def packStep (kMaxRpcSize commit_size : Nat) (flush is_last : Bool)
    (m : MuRecord) (st : MuBatchState) :
    MuBatchState × Option (Nat × List Nat) :=
  let st1 := (packFindOrCreate st).2
  let b := packAppended st m
  if kMaxRpcSize ≤ b.byte_size ∨
      (is_last = true ∧ (flush = true ∨ commit_size ≤ b.row_id_list.length))
  then ({ st1 with batch := none }, some (b.sequence_num, b.row_id_list))
  else ({ st1 with batch := some b }, none)

/-- TableImpl::PackMutations (table_impl.cc 622-674): fold packStep over
the call's mutation list, collecting the emitted commits in order. -/
def PackMutations (kMaxRpcSize commit_size : Nat) (flush : Bool) :
    List MuRecord → MuBatchState → MuBatchState × List (Nat × List Nat)
  | [], st => (st, [])
  | m :: rest, st =>
    let p := packStep kMaxRpcSize commit_size flush rest.isEmpty m st
    let q := PackMutations kMaxRpcSize commit_size flush rest p.1
    (q.1, p.2.toList ++ q.2)

/-- TableImpl::MutationBatchTimeout (table_impl.cc 676-694): if the
server has no entry in mutation_batch_map_, or the stored batch's
sequence number differs from the timer's batch_seq, return without
committing anything; otherwise erase the entry and commit its row id
list. -/
def MutationBatchTimeout (batch_seq : Nat) (st : MuBatchState) :
    MuBatchState × Option (Nat × List Nat) :=
  match st.batch with
  | none => (st, none)
  | some b =>
    if b.sequence_num = batch_seq then
      ({ st with batch := none }, some (b.sequence_num, b.row_id_list))
    else (st, none)

/-- TableImpl::PackReaders (table_impl.cc 986-1024): find or create the
server's reader batch, append all reader ids of the call, and commit —
erasing the entry and cancelling the timer — iff the row count reached
commit_size_. -/
def PackReaders (commit_size : Nat) (ids : List Nat) (st : MuBatchState) :
    MuBatchState × Option (Nat × List Nat) :=
  let st1 := (packFindOrCreate st).2
  let b0 := (packFindOrCreate st).1
  let b := { b0 with row_id_list := b0.row_id_list ++ ids }
  if commit_size ≤ b.row_id_list.length then
    ({ st1 with batch := none }, some (b.sequence_num, b.row_id_list))
  else ({ st1 with batch := some b }, none)

/-- TableImpl::ReaderBatchTimeout (table_impl.cc 1026-1044): the same
absent-entry / sequence-number guard as MutationBatchTimeout, over
reader_batch_map_. -/
def ReaderBatchTimeout (batch_seq : Nat) (st : MuBatchState) :
    MuBatchState × Option (Nat × List Nat) :=
  match st.batch with
  | none => (st, none)
  | some b =>
    if b.sequence_num = batch_seq then
      ({ st with batch := none }, some (b.sequence_num, b.row_id_list))
    else (st, none)

/-- C5: a mutation batch is committed exactly when one of the code's
triggers holds: by packStep iff the accumulated byte size reached
kMaxRpcSize or the mutation is the last of its call and the call is a
flush or the row count reached commit_size_ (otherwise the appended
batch survives in the map); and by the write_commit_timeout timer iff
the server's entry is still present with the timer's sequence number, in
which case the stored row id list is committed and the entry erased. -/
theorem tera_C5_batch_commit_conditions (K C : Nat) (f il : Bool)
    (m : MuRecord) (st : MuBatchState) (s : Nat) :
    ((packStep K C f il m st).2 ≠ none ↔
      K ≤ (packAppended st m).byte_size ∨
        (il = true ∧ (f = true ∨
          C ≤ (packAppended st m).row_id_list.length))) ∧
    ((packStep K C f il m st).2 = none →
      (packStep K C f il m st).1.batch = some (packAppended st m)) ∧
    ((packStep K C f il m st).2 ≠ none →
      (packStep K C f il m st).2 =
        some ((packAppended st m).sequence_num,
          (packAppended st m).row_id_list)) ∧
    ((MutationBatchTimeout s st).2.isSome = true ↔
      ∃ b, st.batch = some b ∧ b.sequence_num = s) ∧
    (∀ b, st.batch = some b → b.sequence_num = s →
      MutationBatchTimeout s st =
        ({ st with batch := none }, some (b.sequence_num, b.row_id_list)))
    := by
  refine ⟨?_, ?_, ?_, ?_, ?_⟩
  · by_cases h : K ≤ (packAppended st m).byte_size ∨
        (il = true ∧ (f = true ∨
          C ≤ (packAppended st m).row_id_list.length))
    · rw [packStep, if_pos h]
      simpa using h
    · rw [packStep, if_neg h]
      simpa using h
  · intro hn
    by_cases h : K ≤ (packAppended st m).byte_size ∨
        (il = true ∧ (f = true ∨
          C ≤ (packAppended st m).row_id_list.length))
    · rw [packStep, if_pos h] at hn
      simp at hn
    · rw [packStep, if_neg h]
  · intro hn
    by_cases h : K ≤ (packAppended st m).byte_size ∨
        (il = true ∧ (f = true ∨
          C ≤ (packAppended st m).row_id_list.length))
    · rw [packStep, if_pos h]
    · rw [packStep, if_neg h] at hn
      simp at hn
  · cases hb : st.batch with
    | none => simp [MutationBatchTimeout, hb]
    | some b =>
      by_cases hs : b.sequence_num = s
      · simp [MutationBatchTimeout, hb, if_pos hs]
        exact hs
      · simp [MutationBatchTimeout, hb, if_neg hs]
        intro h
        exact absurd h hs
  · intro b hb hs
    rw [MutationBatchTimeout]
    rw [hb]
    simp [if_pos hs]

/-- Interleaving of operations on one server's mutation batch slot:
PackMutations calls (with their flush flag and mutation list) and
firings of batch timers (with the sequence number they carry). -/
inductive BatchEvent
  | pack (flush : Bool) (ms : List MuRecord)
  | timeout (seq : Nat)

/-- Run a sequence of batch events from a state, collecting every commit
emitted (sequence number and row id list) in order. -/
def runEvents (kMaxRpcSize commit_size : Nat) :
    List BatchEvent → MuBatchState → MuBatchState × List (Nat × List Nat)
  | [], st => (st, [])
  | .pack f ms :: rest, st =>
    let p := PackMutations kMaxRpcSize commit_size f ms st
    let q := runEvents kMaxRpcSize commit_size rest p.1
    (q.1, p.2 ++ q.2)
  | .timeout s :: rest, st =>
    let p := MutationBatchTimeout s st
    let q := runEvents kMaxRpcSize commit_size rest p.1
    (q.1, p.2.toList ++ q.2)

/-- The sequence number stored in the slot's live batch, as a list. -/
def seqList (st : MuBatchState) : List Nat :=
  match st.batch with
  | some b => [b.sequence_num]
  | none => []

/-- Bookkeeping invariant of the batch machinery: the sequence numbers of
the already committed batches, then the live batch's (if any), then the
fresh counter value, form a strictly increasing list. -/
def BatchInv (st : MuBatchState) (emitted : List (Nat × List Nat)) : Prop :=
  List.Chain' (· < ·)
    (emitted.map Prod.fst ++ (seqList st ++ [st.seq_counter]))

/-- The possible effects of one batch operation on the slot: leave
everything unchanged; rewrite the live batch in place keeping its
sequence number; commit the live batch, erasing it; or, from an empty
slot, create a batch with the fresh sequence number and either keep it
or commit it at once. -/
def StepShape (st st' : MuBatchState) (ev : Option (Nat × List Nat)) :
    Prop :=
  (st' = st ∧ ev = none) ∨
  (st'.seq_counter = st.seq_counter ∧ ev = none ∧
    ∃ b b', st.batch = some b ∧ st'.batch = some b' ∧
      b'.sequence_num = b.sequence_num) ∨
  (st'.seq_counter = st.seq_counter ∧ st'.batch = none ∧
    ∃ b rows, st.batch = some b ∧ ev = some (b.sequence_num, rows)) ∨
  (st.batch = none ∧ st'.seq_counter = st.seq_counter + 1 ∧
    ((st'.batch = none ∧ ∃ rows, ev = some (st.seq_counter, rows)) ∨
     (ev = none ∧ ∃ b', st'.batch = some b' ∧
       b'.sequence_num = st.seq_counter)))

theorem seqList_some {st : MuBatchState} {b : TaskBatch}
    (h : st.batch = some b) : seqList st = [b.sequence_num] := by
  rw [seqList, h]

theorem seqList_none {st : MuBatchState} (h : st.batch = none) :
    seqList st = [] := by
  rw [seqList, h]

theorem batchInv_iff (st : MuBatchState)
    (emitted : List (Nat × List Nat)) :
    BatchInv st emitted ↔ List.Chain' (· < ·)
      (emitted.map Prod.fst ++ (seqList st ++ [st.seq_counter])) :=
  Iff.rfl

theorem batchInv_step {st st' : MuBatchState} {ev : Option (Nat × List Nat)}
    {emitted : List (Nat × List Nat)}
    (hinv : BatchInv st emitted) (hs : StepShape st st' ev) :
    BatchInv st' (emitted ++ ev.toList) := by
  rcases hs with ⟨rfl, rfl⟩ | ⟨hc, rfl, b, b', hb, hb', hseq⟩ |
    ⟨hc, hb', b, rows, hb, rfl⟩ | ⟨hb, hc, hcase⟩
  · simpa using hinv
  · rw [batchInv_iff] at hinv ⊢
    rw [seqList_some hb] at hinv
    rw [seqList_some hb', hseq, hc]
    simpa using hinv
  · rw [batchInv_iff] at hinv ⊢
    rw [seqList_some hb] at hinv
    rw [seqList_none hb', hc]
    simpa [List.append_assoc] using hinv
  · rw [batchInv_iff] at hinv
    rw [seqList_none hb] at hinv
    simp only [List.nil_append] at hinv
    have hext : List.Chain' (· < ·)
        ((emitted.map Prod.fst ++ [st.seq_counter]) ++
          [st.seq_counter + 1]) := by
      refine List.Chain'.append hinv (List.chain'_singleton _) ?_
      intro x hx y hy
      rw [List.getLast?_concat] at hx
      simp only [List.head?_cons, Option.mem_def, Option.some.injEq] at hx hy
      rw [← hx, ← hy]
      exact Nat.lt_succ_self _
    rcases hcase with ⟨hb', rows, rfl⟩ | ⟨rfl, b', hb', hseq⟩
    · rw [batchInv_iff]
      rw [seqList_none hb', hc]
      simpa [List.append_assoc] using hext
    · rw [batchInv_iff]
      rw [seqList_some hb', hseq, hc]
      simpa [List.append_assoc] using hext

theorem packStep_shape (K C : Nat) (f il : Bool) (m : MuRecord)
    (st : MuBatchState) :
    StepShape st (packStep K C f il m st).1 (packStep K C f il m st).2 := by
  by_cases h : K ≤ (packAppended st m).byte_size ∨
      (il = true ∧ (f = true ∨
        C ≤ (packAppended st m).row_id_list.length))
  · rw [packStep, if_pos h]
    cases hb : st.batch with
    | some b =>
      refine Or.inr (Or.inr (Or.inl ?_))
      refine ⟨?_, rfl, b, (packAppended st m).row_id_list, hb, ?_⟩
      · simp [packFindOrCreate, hb]
      · have hsq : (packAppended st m).sequence_num = b.sequence_num := by
          simp [packAppended, packFindOrCreate, hb]
        rw [hsq]
    | none =>
      refine Or.inr (Or.inr (Or.inr ?_))
      refine ⟨hb, ?_, Or.inl ⟨rfl, (packAppended st m).row_id_list, ?_⟩⟩
      · simp [packFindOrCreate, hb]
      · have hsq : (packAppended st m).sequence_num = st.seq_counter := by
          simp [packAppended, packFindOrCreate, hb]
        rw [hsq]
  · rw [packStep, if_neg h]
    cases hb : st.batch with
    | some b =>
      refine Or.inr (Or.inl ?_)
      refine ⟨?_, rfl, b, packAppended st m, hb, rfl, ?_⟩
      · simp [packFindOrCreate, hb]
      · simp [packAppended, packFindOrCreate, hb]
    | none =>
      refine Or.inr (Or.inr (Or.inr ?_))
      refine ⟨hb, ?_, Or.inr ⟨rfl, packAppended st m, rfl, ?_⟩⟩
      · simp [packFindOrCreate, hb]
      · simp [packAppended, packFindOrCreate, hb]

theorem mutationBatchTimeout_shape (s : Nat) (st : MuBatchState) :
    StepShape st (MutationBatchTimeout s st).1
      (MutationBatchTimeout s st).2 := by
  cases hb : st.batch with
  | none =>
    simp only [MutationBatchTimeout, hb]
    exact Or.inl ⟨rfl, rfl⟩
  | some b =>
    simp only [MutationBatchTimeout, hb]
    by_cases hs : b.sequence_num = s
    · rw [if_pos hs]
      exact Or.inr (Or.inr (Or.inl ⟨rfl, rfl, b, b.row_id_list, hb, rfl⟩))
    · rw [if_neg hs]
      exact Or.inl ⟨rfl, rfl⟩

theorem packMutations_inv (K C : Nat) (f : Bool) (ms : List MuRecord) :
    ∀ (st : MuBatchState) (emitted : List (Nat × List Nat)),
      BatchInv st emitted →
      BatchInv (PackMutations K C f ms st).1
        (emitted ++ (PackMutations K C f ms st).2) := by
  induction ms with
  | nil =>
    intro st emitted h
    simpa [PackMutations] using h
  | cons m rest ih =>
    intro st emitted h
    have h1 := batchInv_step h (packStep_shape K C f rest.isEmpty m st)
    have h2 := ih _ _ h1
    rw [PackMutations]
    simpa [List.append_assoc] using h2

theorem runEvents_inv (K C : Nat) (evs : List BatchEvent) :
    ∀ (st : MuBatchState) (emitted : List (Nat × List Nat)),
      BatchInv st emitted →
      BatchInv (runEvents K C evs st).1
        (emitted ++ (runEvents K C evs st).2) := by
  induction evs with
  | nil =>
    intro st emitted h
    simpa [runEvents] using h
  | cons e rest ih =>
    intro st emitted h
    cases e with
    | pack f ms =>
      have h1 := packMutations_inv K C f ms st emitted h
      have h2 := ih _ _ h1
      rw [runEvents]
      simpa [List.append_assoc] using h2
    | timeout s =>
      have h1 := batchInv_step h (mutationBatchTimeout_shape s st)
      have h2 := ih _ _ h1
      rw [runEvents]
      simpa [List.append_assoc] using h2

theorem batchInv_pairwise {st : MuBatchState}
    {emitted : List (Nat × List Nat)} (h : BatchInv st emitted) :
    List.Pairwise (fun a b : Nat × List Nat => a.1 ≠ b.1) emitted := by
  rw [BatchInv] at h
  have hleft : List.Chain' (· < ·) (emitted.map Prod.fst) :=
    (List.chain'_append.mp h).1
  have hpw : List.Pairwise (· < ·) (emitted.map Prod.fst) :=
    List.chain'_iff_pairwise.mp hleft
  have := List.pairwise_map.mp hpw
  exact this.imp (fun hlt => Nat.ne_of_lt hlt)

/-- C10: every per-server batch is committed at most once: over any
interleaving of PackMutations calls and batch-timer firings from the
initial state, the emitted commits carry pairwise distinct batch
sequence numbers; a timeout whose server entry is absent from the batch
map, or whose sequence number differs from the stored batch's, performs
no commit and leaves the map unchanged (for readers too); and a
size/flush-triggered commit erases the map entry, so that batch's row id
list can no longer be submitted by its timer. -/
theorem tera_C10_batch_committed_once (K C : Nat) (evs : List BatchEvent)
    (s : Nat) (st : MuBatchState) (f il : Bool) (m : MuRecord) :
    List.Pairwise (fun a b : Nat × List Nat => a.1 ≠ b.1)
      (runEvents K C evs ⟨none, 0, 0⟩).2 ∧
    (st.batch = none → MutationBatchTimeout s st = (st, none)) ∧
    (∀ b, st.batch = some b → b.sequence_num ≠ s →
      MutationBatchTimeout s st = (st, none)) ∧
    (st.batch = none → ReaderBatchTimeout s st = (st, none)) ∧
    (∀ b, st.batch = some b → b.sequence_num ≠ s →
      ReaderBatchTimeout s st = (st, none)) ∧
    ((packStep K C f il m st).2 ≠ none →
      (packStep K C f il m st).1.batch = none) := by
  refine ⟨?_, ?_, ?_, ?_, ?_, ?_⟩
  · have h0 : BatchInv ⟨none, 0, 0⟩ [] := by
      simp [BatchInv, seqList]
    have h := runEvents_inv K C evs _ [] h0
    simpa using batchInv_pairwise h
  · intro h
    simp [MutationBatchTimeout, h]
  · intro b hb hs
    simp [MutationBatchTimeout, hb, hs]
  · intro h
    simp [ReaderBatchTimeout, h]
  · intro b hb hs
    simp [ReaderBatchTimeout, hb, hs]
  · intro hn
    by_cases h : K ≤ (packAppended st m).byte_size ∨
        (il = true ∧ (f = true ∨
          C ≤ (packAppended st m).row_id_list.length))
    · rw [packStep, if_pos h]
    · rw [packStep, if_neg h] at hn
      simp at hn

/-- Candidate-erasure step of BatchGcStrategy::ProcessQueryCallbackForGc
(gc_strategy.cc 110-129) for one table: the query response reports, per
locality group, the file numbers a live tablet still inherits, and each
reported number is erased from that lg's deletion-candidate set
gc_live_files_ (the CHECK at line 118 enforces equal lg counts). -/
def ProcessQueryCallbackForGc (file_set : List (List Nat))
    (reported : List (List Nat)) : List (List Nat) :=
  List.zipWith
    (fun fs rep => fs.filter (fun n => decide (n ∉ rep))) file_set reported

/-- BatchGcStrategy::DeleteObsoleteFiles (gc_strategy.cc 208-224) deletes
every file still in gc_live_files_ once all query responses of the round
have been processed: the deleted set is the fold of the erasure step over
the responses. -/
def DeleteObsoleteFiles (file_set : List (List Nat))
    (responses : List (List (List Nat))) : List (List Nat) :=
  responses.foldl ProcessQueryCallbackForGc file_set

/-- Per-lg file bookkeeping of the incremental strategy (struct LgFileSet):
the files present in storage and the files still reported live. -/
structure LgFileSet where
  storage_files_ : List Nat
  live_files_ : List Nat
deriving DecidableEq

/-- Per-tablet bookkeeping of the incremental strategy (struct
TabletFileSet): when a live tablet last reported ready, when a dead
tablet died, and its per-lg file sets. -/
structure TabletFileSet where
  ready_time_ : Int
  dead_time_ : Int
  files_ : List (Nat × LgFileSet)
deriving DecidableEq

/-- The earliest ready time over the live tablets, starting from max_ts_
(IncrementalGcStrategy::DeleteTableFiles, gc_strategy.cc 402-408). -/
def earliest_ready_time (max_ts : Int) (live : List TabletFileSet) : Int :=
  live.foldl
    (fun acc t => if t.ready_time_ < acc then t.ready_time_ else acc) max_ts

/-- Files deleted from one qualifying dead tablet by
IncrementalGcStrategy::DeleteTableFiles (gc_strategy.cc 424-446): per
locality group, exactly the storage_files_ absent from live_files_. -/
def deleteTabletFiles (t : TabletFileSet) : List (Nat × List Nat) :=
  t.files_.map (fun p =>
    (p.1, p.2.storage_files_.filter (fun n => decide (n ∉ p.2.live_files_))))

/-- IncrementalGcStrategy::DeleteTableFiles (gc_strategy.cc 397-480) for
one table: a dead tablet qualifies iff its dead_time_ precedes the
earliest ready time of the round's live tablets; the result pairs each
qualifying tablet with the files deleted from it. -/
def DeleteTableFiles (max_ts : Int) (live dead : List TabletFileSet) :
    List (TabletFileSet × List (Nat × List Nat)) :=
  let earliest := earliest_ready_time max_ts live
  (dead.filter (fun t => decide (t.dead_time_ < earliest))).map
    (fun t => (t, deleteTabletFiles t))

theorem process_excludes :
    ∀ (fs rep : List (List Nat)) (lg n : Nat), n ∈ rep.getD lg [] →
      n ∉ (ProcessQueryCallbackForGc fs rep).getD lg [] := by
  intro fs
  induction fs with
  | nil =>
    intro rep lg n _
    simp [ProcessQueryCallbackForGc, List.getD]
  | cons a fs ih =>
    intro rep lg n hmem
    cases rep with
    | nil => simp [List.getD] at hmem
    | cons b rep =>
      cases lg with
      | zero =>
        simp only [List.getD_cons_zero] at hmem
        simp only [ProcessQueryCallbackForGc, List.zipWith_cons_cons,
          List.getD_cons_zero, List.mem_filter]
        rintro ⟨-, hdec⟩
        rw [decide_eq_true_iff] at hdec
        exact hdec hmem
      | succ lg =>
        simp only [List.getD_cons_succ] at hmem
        simp only [ProcessQueryCallbackForGc, List.zipWith_cons_cons,
          List.getD_cons_succ]
        exact ih rep lg n hmem

theorem process_shrinks :
    ∀ (fs rep : List (List Nat)) (lg n : Nat), n ∉ fs.getD lg [] →
      n ∉ (ProcessQueryCallbackForGc fs rep).getD lg [] := by
  intro fs
  induction fs with
  | nil =>
    intro rep lg n _
    simp [ProcessQueryCallbackForGc, List.getD]
  | cons a fs ih =>
    intro rep lg n hmem
    cases rep with
    | nil =>
      simp [ProcessQueryCallbackForGc, List.getD]
    | cons b rep =>
      cases lg with
      | zero =>
        simp only [List.getD_cons_zero] at hmem
        simp only [ProcessQueryCallbackForGc, List.zipWith_cons_cons,
          List.getD_cons_zero, List.mem_filter]
        rintro ⟨hin, -⟩
        exact hmem hin
      | succ lg =>
        simp only [List.getD_cons_succ] at hmem
        simp only [ProcessQueryCallbackForGc, List.zipWith_cons_cons,
          List.getD_cons_succ]
        exact ih rep lg n hmem

theorem deleteObsolete_shrinks :
    ∀ (responses : List (List (List Nat))) (fs : List (List Nat))
      (lg n : Nat), n ∉ fs.getD lg [] →
      n ∉ (DeleteObsoleteFiles fs responses).getD lg [] := by
  intro responses
  induction responses with
  | nil =>
    intro fs lg n h
    simpa [DeleteObsoleteFiles] using h
  | cons r rest ih =>
    intro fs lg n h
    have h1 := process_shrinks fs r lg n h
    exact ih _ lg n h1

theorem batch_never_deletes :
    ∀ (responses : List (List (List Nat))) (fs r : List (List Nat)),
      r ∈ responses → ∀ (lg n : Nat), n ∈ r.getD lg [] →
      n ∉ (DeleteObsoleteFiles fs responses).getD lg [] := by
  intro responses
  induction responses with
  | nil =>
    intro fs r hr
    simp at hr
  | cons r0 rest ih =>
    intro fs r hr lg n hmem
    rcases List.mem_cons.mp hr with rfl | hr'
    · have h1 := process_excludes fs r lg n hmem
      exact deleteObsolete_shrinks rest _ lg n h1
    · exact ih _ r hr' lg n hmem

/-- C1: neither GC strategy deletes a file a live tablet still claims as
inherited.  Batch: any file number reported at some lg by any query
response of the round is absent from what DeleteObsoleteFiles deletes at
that lg.  Incremental: DeleteTableFiles touches only dead tablets whose
dead_time_ precedes the round's earliest live ready time, and for such a
tablet deletes, per lg, exactly files of storage_files_ that are absent
from that round's live_files_. -/
theorem tera_C1_gc_never_deletes_inherited
    (file_set : List (List Nat)) (responses : List (List (List Nat)))
    (max_ts : Int) (live dead : List TabletFileSet) :
    (∀ r ∈ responses, ∀ lg n, n ∈ r.getD lg [] →
      n ∉ (DeleteObsoleteFiles file_set responses).getD lg []) ∧
    (∀ pr ∈ DeleteTableFiles max_ts live dead,
      pr.1 ∈ dead ∧
      pr.1.dead_time_ < earliest_ready_time max_ts live ∧
      ∀ lgdel ∈ pr.2, ∃ lgset, (lgdel.1, lgset) ∈ pr.1.files_ ∧
        ∀ n ∈ lgdel.2,
          n ∈ lgset.storage_files_ ∧ n ∉ lgset.live_files_) := by
  constructor
  · intro r hr lg n hmem
    exact batch_never_deletes responses file_set r hr lg n hmem
  · intro pr hpr
    rw [DeleteTableFiles] at hpr
    rcases List.mem_map.mp hpr with ⟨t, ht, rfl⟩
    have hmf := List.mem_filter.mp ht
    refine ⟨hmf.1, by simpa using hmf.2, ?_⟩
    intro lgdel hlg
    rcases List.mem_map.mp hlg with ⟨p, hp, rfl⟩
    refine ⟨p.2, hp, ?_⟩
    intro n hn
    have := List.mem_filter.mp hn
    exact ⟨this.1, by simpa using this.2⟩
